import Mathlib

/-!
Verification development for the twitch-translator core crate.

Each Rust function relevant to the checked properties is shallowly embedded
as an executable Lean definition. Machine integers are modelled as `Nat`
with explicit wrapping / saturation where the Rust code can overflow
(`u64` additions in the HLS sequence arithmetic, `as u64` casts).
Floating-point arithmetic (`f64`/`f32` in retry-delay and segment-duration
computations) is idealised over `ℚ`, matching the real-arithmetic formulas
the specification states. Fallible operations return `Except`/`Option`;
`Option.none` at the top level of the retry model marks the `unwrap` panic
path. Stateful methods (`&mut self`) are explicit state-passing functions.
-/

/-- Size of the `u64` value space; `u64` arithmetic is `Nat` arithmetic
reduced by this modulus where the Rust code can wrap. -/
def U64SIZE : Nat := 2 ^ 64

/-- Wrapping `u64` addition (release-mode overflow semantics of `a + b`). -/
def u64wrapAdd (a b : Nat) : Nat := (a + b) % U64SIZE

/-- `u64::saturating_add`. -/
def u64satAdd (a b : Nat) : Nat := min (a + b) (U64SIZE - 1)

/-- The Rust `as u64` cast from a (nonnegative-or-not) real value:
truncation toward zero with saturation, negatives collapse to zero. -/
def ratToU64 (q : ℚ) : Nat := min (Int.toNat ⌊q⌋) (U64SIZE - 1)

/-- Does `hay` start with `needle`? (helper for substring search). -/
def startsWithList : List Char → List Char → Bool
  | _, [] => true
  | [], _ :: _ => false
  | a :: as, b :: bs => a == b && startsWithList as bs

/-- `str::contains` for a literal needle: some suffix of `hay` starts with
`needle`. -/
def hasSubstring : List Char → List Char → Bool
  | [], needle => needle.isEmpty
  | h :: t, needle => startsWithList (h :: t) needle || hasSubstring t needle

/-- `IngestError` from `crates/core/src/ingest/mod.rs` (payloads dropped). -/
inductive IngestError where
  | NotImplemented
  | InvalidUrl
  | Http
  | TwitchGqlMissingFields
  | HlsParse
  | ExpectedMasterPlaylist
  | ExpectedMediaPlaylist
  | NoUsableVariant
deriving DecidableEq, Repr

/-- One `MediaSegment` of a parsed m3u8 media playlist: the relative URI
and the `#EXTINF` duration (an `f32` in `m3u8_rs`, idealised as `ℚ`). -/
structure MediaSegment where
  uri : String
  duration : ℚ
deriving DecidableEq, Repr

/-- A parsed m3u8 media playlist: `media_sequence` (`u64`) and segments. -/
structure MediaPlaylist where
  media_sequence : Nat
  segments : List MediaSegment
deriving DecidableEq, Repr

/-- `SegmentInfo`: absolute sequence number, resolved URL, and approximate
duration in milliseconds. -/
structure SegmentInfo where
  sequence : Nat
  url : String
  approx_duration_ms : Nat
deriving DecidableEq, Repr

/-- `MediaPlaylistState`: the poller's tracked next sequence (if any) and
the configured initial backlog. -/
structure MediaPlaylistState where
  next_sequence : Option Nat
  initial_backlog_segments : Nat
deriving DecidableEq, Repr

/-- `(f64::from(seg.duration).max(0.0) * 1000.0).round() as u64`, the
segment-duration-to-milliseconds conversion inside `extract_new_segments`.
`round` on a nonnegative value is floor of the value plus one half. -/
def segmentDurationMs (d : ℚ) : Nat := ratToU64 (max d 0 * 1000 + 1 / 2)

/-- The emission loop of `MediaPlaylistState::extract_new_segments`:
walk the segments with their index, skip absolute sequences below `next`,
resolve the URI against the base URL (`join`, which can fail, aborting the
whole poll with `InvalidUrl`), and collect `SegmentInfo`s in order.
`u64::try_from(i)` on a `usize` index never fails, so the index is used
directly; `seq0 + i` is wrapping `u64` addition. -/
def collectSegments (join : String → Option String) (next seq0 : Nat) :
    List MediaSegment → Nat → Except IngestError (List SegmentInfo)
  | [], _ => .ok []
  | seg :: rest, i =>
    let seq := u64wrapAdd seq0 i
    if seq < next then collectSegments join next seq0 rest (i + 1)
    else
      match join seg.uri with
      | none => .error .InvalidUrl
      | some url =>
        (collectSegments join next seq0 rest (i + 1)).map
          (fun out => ⟨seq, url, segmentDurationMs seg.duration⟩ :: out)

/-- `MediaPlaylistState::extract_new_segments` (ingest/mod.rs:334-377).
Returns the poll result together with the updated state (`&mut self`):
empty playlists are a no-op; a cold state is seeded near the live edge
using `initial_backlog_segments.max(1)`; a tracked `next` below the new
`media_sequence` jumps forward to it; segments at or above `next` are
emitted and `next_sequence` becomes one past the last emitted sequence
(`saturating_add`). A URI join failure leaves the partially updated state
behind, as the early `?` return does in Rust. -/
def MediaPlaylistState.extract_new_segments (join : String → Option String)
    (st : MediaPlaylistState) (mp : MediaPlaylist) :
    Except IngestError (List SegmentInfo) × MediaPlaylistState :=
  let seq0 := mp.media_sequence
  let n := mp.segments.length
  if n = 0 then (.ok [], st)
  else
    let st1 :=
      match st.next_sequence with
      | none =>
        let backlog := max st.initial_backlog_segments 1
        let start_index := n - backlog
        { st with next_sequence := some (u64wrapAdd seq0 start_index) }
      | some next =>
        if next < seq0 then { st with next_sequence := some seq0 } else st
    let next := st1.next_sequence.getD 0
    match collectSegments join next seq0 mp.segments 0 with
    | .error e => (.error e, st1)
    | .ok out =>
      match out.getLast? with
      | some last =>
        (.ok out, { st1 with next_sequence := some (u64satAdd last.sequence 1) })
      | none => (.ok out, st1)

/-- The poller driving loop (ingest/mod.rs:136-154) restricted to its
observable effect on emissions: each poll feeds the playlist through
`extract_new_segments`; a failed poll contributes no segments but keeps
the (possibly partially updated) state. Returns all emitted descriptors
in order together with the final state. -/
def pollTrace (join : String → Option String) (st : MediaPlaylistState) :
    List MediaPlaylist → List SegmentInfo × MediaPlaylistState
  | [] => ([], st)
  | mp :: rest =>
    let r := st.extract_new_segments join mp
    let out := match r.1 with | .ok o => o | .error _ => []
    let tl := pollTrace join r.2 rest
    (out ++ tl.1, tl.2)

/-- The segments a poll contributes to the jitter buffer: those of a
successful poll, none for a failed one (the driving loop logs and moves
on). -/
def okList : Except IngestError (List SegmentInfo) → List SegmentInfo
  | .ok o => o
  | .error _ => []

/-- `m3u8_rs::AlternativeMediaType` (the variants the selector can meet). -/
inductive AlternativeMediaType where
  | Audio
  | Video
  | Subtitles
  | ClosedCaptions
  | Other
deriving DecidableEq, Repr

/-- An `#EXT-X-MEDIA` alternative rendition: its type and optional URI. -/
structure AlternativeMedia where
  media_type : AlternativeMediaType
  uri : Option String
deriving DecidableEq, Repr

/-- An `#EXT-X-STREAM-INF` variant: URI, `BANDWIDTH`, optional
`AVERAGE-BANDWIDTH`. -/
structure VariantStream where
  uri : String
  bandwidth : Nat
  average_bandwidth : Option Nat
deriving DecidableEq, Repr

/-- A parsed m3u8 master playlist. -/
structure MasterPlaylist where
  variants : List VariantStream
  alternatives : List AlternativeMedia
deriving DecidableEq, Repr

/-- The URIs of the Audio-typed alternatives that actually carry a URI,
in playlist order (the iterator chain repeated twice in
`select_audio_only_from_master`). -/
def audioAltUris (mp : MasterPlaylist) : List String :=
  (mp.alternatives.filter (fun a => a.media_type == .Audio)).filterMap
    (fun a => a.uri)

/-- `select_audio_only_from_master` (ingest/mod.rs:421-436): the first
Audio alternative URI containing the substring `audio`, else the first
Audio alternative URI at all. -/
def select_audio_only_from_master (mp : MasterPlaylist) : Option String :=
  match (audioAltUris mp).find? (fun u => hasSubstring u.toList "audio".toList) with
  | some u => some u
  | none => (audioAltUris mp).head?

/-- Effective bandwidth of a variant: `average_bandwidth.unwrap_or(bandwidth)`. -/
def effectiveBandwidth (v : VariantStream) : Nat :=
  v.average_bandwidth.getD v.bandwidth

/-- One step of the lowest-effective-bandwidth scan in
`select_from_master`: `best` starts empty and is replaced whenever a
strictly smaller effective bandwidth appears. -/
def bestVariantStep (best : Option (String × Nat)) (v : VariantStream) :
    Option (String × Nat) :=
  match best with
  | none => some (v.uri, effectiveBandwidth v)
  | some (bu, bbw) =>
    if effectiveBandwidth v < bbw then some (v.uri, effectiveBandwidth v)
    else some (bu, bbw)

/-- The lowest-effective-bandwidth scan over the variants, in order. -/
def bestVariant (vs : List VariantStream) : Option (String × Nat) :=
  vs.foldl bestVariantStep none

/-- `HlsVariantSelector::select_from_master` (ingest/mod.rs:398-419)
restricted to the URI it chooses (the subsequent `base_url.join` is not
modelled): if audio-only is requested and an audio alternative with a URI
exists, that alternative's URI; otherwise the variant with the smallest
effective bandwidth; otherwise `NoUsableVariant`. -/
def HlsVariantSelector.select_from_master (audio_only : Bool)
    (mp : MasterPlaylist) : Except IngestError String :=
  match (if audio_only then select_audio_only_from_master mp else none) with
  | some u => .ok u
  | none =>
    match bestVariant mp.variants with
    | some (uri, _) => .ok uri
    | none => .error .NoUsableVariant

/-- `TtsError` as used by the fallback client and the providers
(`QuotaExhausted` and `Other` live in the full crate; `tts/mod.rs` also
declares `NotImplemented`). -/
inductive TtsError where
  | NotImplemented
  | QuotaExhausted
  | Other (msg : String)
deriving DecidableEq, Repr

/-- `TtsAudio`: sample rate (`u32`), channel count (`u16`), interleaved
signed 16-bit samples. -/
structure TtsAudio where
  sample_rate_hz : Nat
  channels : Nat
  pcm_i16 : List Int
deriving DecidableEq, Repr

/-- `FallbackState`: the quota latch and the instant it was set
(instants are modelled as `Nat` milliseconds). -/
structure FallbackState where
  quota_exhausted : Bool
  exhausted_at : Option Nat
deriving DecidableEq, Repr

/-- `RETRY_PRIMARY_INTERVAL = Duration::from_secs(300)`, in milliseconds. -/
def RETRY_PRIMARY_INTERVAL : Nat := 300 * 1000

/-- `FallbackTtsClient::synthesize` (tts/fallback.rs:67-115) as a pure
state transformer. The outcomes of the primary and the secondary call at
this instant are inputs; `t.elapsed()` is the saturating difference
`now - t`. Returns the reply together with the updated latch state. -/
def FallbackTtsClient.synthesize (st : FallbackState) (now : Nat)
    (primaryResult localResult : Except TtsError TtsAudio) :
    Except TtsError TtsAudio × FallbackState :=
  if st.quota_exhausted then
    let should_retry : Bool :=
      match st.exhausted_at with
      | some t => decide (RETRY_PRIMARY_INTERVAL ≤ now - t)
      | none => false
    if should_retry then
      match primaryResult with
      | .ok audio => (.ok audio, { quota_exhausted := false, exhausted_at := none })
      | .error .QuotaExhausted => (localResult, { st with exhausted_at := some now })
      | .error _ => (localResult, st)
    else (localResult, st)
  else
    match primaryResult with
    | .ok audio => (.ok audio, st)
    | .error .QuotaExhausted =>
      (localResult, { quota_exhausted := true, exhausted_at := some now })
    | .error _ => (localResult, st)

/-- `RetryConfig` (util/retry.rs): durations in nanoseconds (`Nat`), the
`f64` multiplier idealised as `ℚ`. -/
structure RetryConfig where
  max_attempts : Nat
  initial_delay : Nat
  backoff_multiplier : ℚ
  max_delay : Nat
deriving DecidableEq, Repr

/-- `RetryConfig::delay_for_attempt` (util/retry.rs:45-51):
`initial_delay.as_millis()` floors to milliseconds, the `f64` product
with `multiplier.powi(attempt - 1)` is taken over `ℚ` (`powi` of a
negative exponent is the inverse power, hence `zpow`), `as u64`
truncates with saturation, `Duration::from_millis` scales back to
nanoseconds, and the result is capped at `max_delay`. -/
def RetryConfig.delay_for_attempt (cfg : RetryConfig) (attempt : Nat) : Nat :=
  let delay_ms : ℚ :=
    (cfg.initial_delay / 1000000 : Nat) *
      cfg.backoff_multiplier ^ ((attempt : Int) - 1)
  min (ratToU64 delay_ms * 1000000) cfg.max_delay

/-- The `for attempt in 1..=max_attempts` loop of `retry_with_backoff`.
`fuel` is the number of remaining loop iterations (`max_attempts + 1 -
attempt`); exhausting it without an iteration is the fall-through to
`Err(last_error.unwrap())`, which with no recorded error is the panic,
modelled as `none`. Returns the outcome, the number of operation
invocations, and the list of sleeps performed between attempts. -/
def retryAux {E T : Type} (f : Nat → Except E T) (retryable : E → Bool)
    (delay : Nat → Nat) (maxAttempts : Nat) (attempt : Nat) :
    Nat → Option (Except E T) × Nat × List Nat
  | 0 => (none, 0, [])
  | fuel + 1 =>
    match f attempt with
    | .ok v => (some (.ok v), 1, [])
    | .error e =>
      if attempt < maxAttempts ∧ retryable e = true then
        let r := retryAux f retryable delay maxAttempts (attempt + 1) fuel
        (r.1, r.2.1 + 1, delay attempt :: r.2.2)
      else (some (.error e), 1, [])

/-- `retry_with_backoff` (util/retry.rs:54-91). The fallible operation is
modelled as a function from the attempt number (1-based) to its outcome. -/
def retry_with_backoff {E T : Type} (cfg : RetryConfig)
    (f : Nat → Except E T) (retryable : E → Bool) :
    Option (Except E T) × Nat × List Nat :=
  retryAux f retryable cfg.delay_for_attempt cfg.max_attempts 1 cfg.max_attempts

/-- `is_http_retryable` (util/retry.rs:94-97). -/
def is_http_retryable (status : Nat) : Bool :=
  status == 408 || status == 429 || (500 ≤ status && status ≤ 599)

/-- `ApiKey` (config.rs:44-45): a newtype around the secret string. -/
structure ApiKey where
  secret : String
deriving DecidableEq, Repr

/-- The `fmt::Debug` implementation for `ApiKey` (config.rs:61-65):
it writes the fixed text and touches nothing of the value. -/
def ApiKey.debugFmt (_ : ApiKey) : String := "ApiKey(**redacted**)"

/-- JSON string escaping of one character as `serde_json` performs it for
the characters that can appear unescaped or with a two-character escape
(quote and backslash; other characters pass through for this model). -/
def escapeJsonChar (c : Char) : List Char :=
  if c = '"' ∨ c = '\\' then ['\\', c] else [c]

/-- JSON string escaping of a whole string body. -/
def escapeJson : List Char → List Char
  | [] => []
  | c :: s => escapeJsonChar c ++ escapeJson s

/-- The serialized form of an `ApiKey` under its derived `Serialize`
implementation: a newtype struct serializes as its inner value, so the
JSON encoding is the quoted, escaped secret. -/
def ApiKey.serializeJson (k : ApiKey) : List Char :=
  '"' :: escapeJson k.secret.toList ++ ['"']

/-- The audio-validity test at the top of `AudioPlaybackSink::play`
(playback/audio.rs:206-211). -/
def isInvalidAudio (a : TtsAudio) : Bool :=
  a.sample_rate_hz == 0 || a.channels == 0 || a.pcm_i16.isEmpty ||
    (a.channels != 0 && a.pcm_i16.length % a.channels != 0)

/-- The rate-limit window of the blank-audio warning,
`RateLimitedWarn::new(Duration::from_secs(5))`, in milliseconds. -/
def BLANK_AUDIO_WARN_INTERVAL : Nat := 5 * 1000

/-- `RateLimitedWarn::should_log` (playback/audio.rs:71-89): log when no
warning was ever recorded or when at least `interval` has elapsed since
the last one (`duration_since` saturates, hence the `Nat` subtraction);
recording the current instant in either logging case. -/
def shouldLog (interval : Nat) (last : Option Nat) (now : Nat) :
    Bool × Option Nat :=
  match last with
  | none => (true, some now)
  | some prev =>
    if interval ≤ now - prev then (true, some now) else (false, some prev)

/-- The state of an `AudioPlaybackSink` that the modelled control flow
reads and writes: the `disabled` no-op latch and the rate limiter's last
warning instant. -/
structure SinkState where
  disabled : Bool
  lastWarn : Option Nat
deriving DecidableEq, Repr

/-- `AudioPlaybackSink::new` yields an enabled sink with a fresh limiter. -/
def AudioPlaybackSink.new : SinkState := { disabled := false, lastWarn := none }

/-- Which branch of `AudioPlaybackSink::play` a call takes.
`earlyOkDisabled` and `earlyOkInvalid` are the `return Ok(())` paths taken
before `connect_sink` runs, so no output stream is opened and nothing is
appended to any sink; `proceedToDevice` marks the branch that goes on to
open/use the cached output stream (whose outcome depends on the device and
is outside this model). -/
inductive PlayOutcome where
  | earlyOkDisabled
  | earlyOkInvalid (warned : Bool)
  | proceedToDevice
deriving DecidableEq, Repr

/-- Did this call emit the rate-limited blank-audio warning? -/
def PlayOutcome.warnedFlag : PlayOutcome → Bool
  | .earlyOkInvalid w => w
  | _ => false

/-- `AudioPlaybackSink::play` (playback/audio.rs:198-251) up to the device
boundary: disabled sinks return `Ok(())` immediately; invalid audio runs
the rate limiter and returns `Ok(())` without touching the device; valid
audio proceeds to the output stream. -/
def AudioPlaybackSink.play (st : SinkState) (now : Nat) (a : TtsAudio) :
    PlayOutcome × SinkState :=
  if st.disabled then (.earlyOkDisabled, st)
  else if isInvalidAudio a then
    let r := shouldLog BLANK_AUDIO_WARN_INTERVAL st.lastWarn now
    (.earlyOkInvalid r.1, { st with lastWarn := r.2 })
  else (.proceedToDevice, st)

/-- A sequence of `play` calls, each at its own instant, threading the
sink state; the outcomes are returned paired with their call instants. -/
def playTrace (st : SinkState) :
    List (Nat × TtsAudio) → List (Nat × PlayOutcome) × SinkState
  | [] => ([], st)
  | (now, a) :: rest =>
    let r := AudioPlaybackSink.play st now a
    let tl := playTrace r.2 rest
    ((now, r.1) :: tl.1, tl.2)

/-- The instants at which a trace of outcomes emitted the warning. -/
def warnInstants (outs : List (Nat × PlayOutcome)) : List Nat :=
  outs.filterMap (fun p => if p.2.warnedFlag then some p.1 else none)

/-- `RingBuffer` (util/ring_buffer.rs): fixed vector of option cells,
`head` pointing at the oldest element, `len` elements stored. -/
structure RingBuffer (T : Type) where
  buf : List (Option T)
  head : Nat
  len : Nat
deriving DecidableEq, Repr

/-- `RingBuffer::new` (capacity cells of `None`; the `capacity > 0`
assertion is a hypothesis of the theorems). -/
def RingBuffer.new (T : Type) (capacity : Nat) : RingBuffer T :=
  { buf := List.replicate capacity none, head := 0, len := 0 }

/-- `RingBuffer::capacity`. -/
def RingBuffer.capacity (rb : RingBuffer T) : Nat := rb.buf.length

/-- `RingBuffer::push` (util/ring_buffer.rs:32-46): append in the free
cell while not full; otherwise `take` the oldest cell, overwrite it, and
advance `head`, returning the displaced element. -/
def RingBuffer.push (rb : RingBuffer T) (value : T) :
    Option T × RingBuffer T :=
  let cap := rb.capacity
  let idx := (rb.head + rb.len) % cap
  if rb.len < cap then
    (none, { rb with buf := rb.buf.set idx (some value), len := rb.len + 1 })
  else
    let overwritten := rb.buf.getD rb.head none
    (overwritten,
      { buf := (rb.buf.set rb.head none).set rb.head (some value),
        head := (rb.head + 1) % cap, len := rb.len })

/-- `RingBuffer::get` (util/ring_buffer.rs:48-55). -/
def RingBuffer.get (rb : RingBuffer T) (index_from_oldest : Nat) : Option T :=
  if rb.len ≤ index_from_oldest then none
  else rb.buf.getD ((rb.head + index_from_oldest) % rb.capacity) none

/-- The elements of a ring buffer from oldest to newest, as
`RingBuffer::iter` yields them. -/
def RingBuffer.toListModel (rb : RingBuffer T) : List (Option T) :=
  (List.range rb.len).map (fun i => rb.buf.getD ((rb.head + i) % rb.capacity) none)

/-- Push every element of a list in order, discarding the displaced ones. -/
def RingBuffer.pushAll (rb : RingBuffer T) : List T → RingBuffer T
  | [] => rb
  | x :: xs => ((rb.push x).2).pushAll xs

/-- The most recent `c` elements of a list, in order. -/
def lastN (c : Nat) (xs : List T) : List T := xs.drop (xs.length - c)

/-- The abstract keep-newest step both buffers implement: append, and
displace the oldest element when the capacity is already reached. -/
def absPush (cap : Nat) (l : List T) (x : T) : List T :=
  if l.length < cap then l ++ [x] else l.tail ++ [x]

/-- Folding `absPush` over a list of pushed elements. -/
def absPushAll (cap : Nat) (l : List T) : List T → List T
  | [] => l
  | x :: xs => absPushAll cap (absPush cap l x) xs

/-- The `while g.len() > self.cap { g.pop_front(); }` loop of
`JitterBuffer::push_drop_oldest`. -/
def dropWhileOver (cap : Nat) (l : List T) : List T :=
  if cap < l.length then dropWhileOver cap l.tail else l
termination_by l.length
decreasing_by
  simp only [List.length_tail]
  omega

/-- `JitterBuffer::push_drop_oldest` (ingest/mod.rs:262-270) on the
underlying deque content: push at the back, then pop from the front while
over capacity. -/
def JitterBuffer.push_drop_oldest (cap : Nat) (l : List T) (item : T) :
    List T :=
  dropWhileOver cap (l ++ [item])

/-- A sequence of `push_drop_oldest` calls starting from a deque content. -/
def JitterBuffer.pushAll (cap : Nat) (l : List T) : List T → List T
  | [] => l
  | x :: xs => JitterBuffer.pushAll cap (JitterBuffer.push_drop_oldest cap l x) xs

/-- `JitterBuffer::pop` once an element is available: the front element
and the remaining deque (the blocking wait is not modelled). -/
def JitterBuffer.pop (l : List T) : Option T × List T := (l.head?, l.tail)

/-- `LatencyBudget` (config.rs:73-76). -/
structure LatencyBudget where
  target_ms : Nat
deriving DecidableEq, Repr

/-- `Pipeline::channel_capacity` (pipeline/mod.rs:222-225):
`(target_ms / 250).clamp(2, 32)` with integer division; the final
`usize::try_from(cap).unwrap_or(8)` cannot fail since the clamped value
is at most 32. -/
def Pipeline.channel_capacity (latency : LatencyBudget) : Nat :=
  min (max (latency.target_ms / 250) 2) 32

/-- The capacities of the five inter-stage channels `Pipeline::run`
creates (pipeline/mod.rs:63-72): ingest→decode, decode→asr,
asr→translate, translate→tts, tts→playback, each created with
`self.channel_capacity()`. -/
def Pipeline.runChannelCapacities (latency : LatencyBudget) : List Nat :=
  [Pipeline.channel_capacity latency, Pipeline.channel_capacity latency,
   Pipeline.channel_capacity latency, Pipeline.channel_capacity latency,
   Pipeline.channel_capacity latency]

/-- The coupling between a `RingBuffer` and the list of its elements from
oldest to newest: sizes agree, `head` is in range, and each stored cell
read at the wrapped offset holds the corresponding list element. -/
def RingBuffer.Represents (rb : RingBuffer T) (l : List T) : Prop :=
  0 < rb.buf.length ∧ rb.head < rb.buf.length ∧ rb.len = l.length ∧
  l.length ≤ rb.buf.length ∧
  ∀ i, i < l.length →
    rb.buf.getD ((rb.head + i) % rb.buf.length) none = l[i]?

deriving instance DecidableEq for Except

/-! ## Helper lemmas -/

theorem startsWithList_self_append (s t : List Char) :
    startsWithList (s ++ t) s = true := by
  induction s with
  | nil => cases t <;> simp [startsWithList]
  | cons c s ih => simp [startsWithList, ih]

theorem hasSubstring_self_append (s t : List Char) :
    hasSubstring (s ++ t) s = true := by
  cases s with
  | nil => cases t <;> simp [hasSubstring, startsWithList, List.isEmpty]
  | cons c s => simp [hasSubstring, startsWithList, startsWithList_self_append]

theorem hasSubstring_cons_of (c : Char) (t n : List Char)
    (h : hasSubstring t n = true) : hasSubstring (c :: t) n = true := by
  simp [hasSubstring, h]

theorem escapeJson_of_plain (s : List Char)
    (h : ∀ c ∈ s, ¬(c = '"' ∨ c = '\\')) : escapeJson s = s := by
  induction s with
  | nil => rfl
  | cons c s ih =>
    have hc := h c (by simp)
    simp only [escapeJson, escapeJsonChar, if_neg hc]
    simp [ih (fun d hd => h d (by simp [hd]))]

/-! ## C9: pipeline channel capacity -/

/-- Claim C9: for every latency budget with positive `target_ms`,
`Pipeline::channel_capacity` is `clamp(target_ms / 250, 2, 32)` with
integer division, hence between 2 and 32 inclusive, and every one of the
five inter-stage channels `Pipeline::run` creates uses that one value. -/
theorem pipeline_channel_capacity_c9 (b : LatencyBudget)
    (h : 0 < b.target_ms) :
    Pipeline.channel_capacity b = min (max (b.target_ms / 250) 2) 32 ∧
    2 ≤ Pipeline.channel_capacity b ∧
    Pipeline.channel_capacity b ≤ 32 ∧
    ∀ c ∈ Pipeline.runChannelCapacities b, c = Pipeline.channel_capacity b := by
  refine ⟨rfl, ?_, ?_, ?_⟩
  · simp only [Pipeline.channel_capacity]
    omega
  · simp only [Pipeline.channel_capacity]
    omega
  · intro c hc
    fin_cases hc <;> rfl

/-- Witness for C9 at the default 1500 ms budget: capacity 6. -/
theorem pipeline_channel_capacity_c9_witness :
    Pipeline.channel_capacity ⟨1500⟩ = min (max (1500 / 250) 2) 32 ∧
    2 ≤ Pipeline.channel_capacity ⟨1500⟩ ∧
    Pipeline.channel_capacity ⟨1500⟩ ≤ 32 :=
  ⟨(pipeline_channel_capacity_c9 ⟨1500⟩ (by decide)).1,
   (pipeline_channel_capacity_c9 ⟨1500⟩ (by decide)).2.1,
   (pipeline_channel_capacity_c9 ⟨1500⟩ (by decide)).2.2.1⟩

/-! ## C6: ApiKey redaction -/

/-- Counterexample for C6: the derived serialization of an `ApiKey` is the
JSON encoding of the raw inner string, so the credential appears verbatim
in the serialized form, and the serialized form depends on the secret —
refuting "the credential never appears in the serialized form". -/
theorem apikey_serialize_leak_c6_counterexample :
    hasSubstring (ApiKey.mk "hunter2").serializeJson "hunter2".toList = true ∧
    (ApiKey.mk "hunter2").serializeJson ≠ (ApiKey.mk "x").serializeJson := by
  decide

/-- Claim C6 as amended: the `Debug` representation of every `ApiKey` is
the constant string `ApiKey(**redacted**)`, identical for any two keys and
hence independent of the secret; the serialized form of an `ApiKey`,
however, is the JSON-quoted raw secret, so the credential does appear in
the serialized output (shown here for secrets without JSON-escaped
characters, where the secret is verbatim a substring). -/
theorem apikey_debug_constant_c6 (k k' : ApiKey)
    (h : ∀ c ∈ k.secret.toList, ¬(c = '"' ∨ c = '\\')) :
    k.debugFmt = "ApiKey(**redacted**)" ∧
    k.debugFmt = k'.debugFmt ∧
    hasSubstring k.serializeJson k.secret.toList = true := by
  refine ⟨rfl, rfl, ?_⟩
  simp only [ApiKey.serializeJson, escapeJson_of_plain _ h]
  exact hasSubstring_cons_of _ _ _ (hasSubstring_self_append _ _)

/-- Witness for C6 at a concrete key. -/
theorem apikey_debug_constant_c6_witness :
    (ApiKey.mk "hunter2").debugFmt = "ApiKey(**redacted**)" ∧
    (ApiKey.mk "hunter2").debugFmt = (ApiKey.mk "other").debugFmt ∧
    hasSubstring (ApiKey.mk "hunter2").serializeJson "hunter2".toList = true :=
  apikey_debug_constant_c6 (ApiKey.mk "hunter2") (ApiKey.mk "other") (by decide)

/-! ## C2: TTS fallback latch policy -/

/-- Claim C2: `FallbackTtsClient::synthesize` follows the latch policy:
with the latch clear, primary success is returned as-is; primary
`QuotaExhausted` sets the latch with `exhausted_at = now` and returns the
secondary's result; any other primary error returns the secondary's
result without latching. With the latch set and less than the 5-minute
cooldown elapsed, only the secondary runs. With the latch set and the
cooldown elapsed, the primary is retried: success clears latch and
timestamp; `QuotaExhausted` refreshes the timestamp and returns the
secondary's result; any other error returns the secondary's result
without clearing the latch. -/
theorem fallback_synthesize_policy_c2 :
    RETRY_PRIMARY_INTERVAL = 5 * 60 * 1000 ∧
    (∀ st now a l, st.quota_exhausted = false →
      FallbackTtsClient.synthesize st now (.ok a) l = (.ok a, st)) ∧
    (∀ st now l, st.quota_exhausted = false →
      FallbackTtsClient.synthesize st now (.error .QuotaExhausted) l =
        (l, { quota_exhausted := true, exhausted_at := some now })) ∧
    (∀ st now e l, st.quota_exhausted = false → e ≠ TtsError.QuotaExhausted →
      FallbackTtsClient.synthesize st now (.error e) l = (l, st)) ∧
    (∀ st now t p l, st.quota_exhausted = true → st.exhausted_at = some t →
      now - t < RETRY_PRIMARY_INTERVAL →
      FallbackTtsClient.synthesize st now p l = (l, st)) ∧
    (∀ st now t a l, st.quota_exhausted = true → st.exhausted_at = some t →
      RETRY_PRIMARY_INTERVAL ≤ now - t →
      FallbackTtsClient.synthesize st now (.ok a) l =
        (.ok a, { quota_exhausted := false, exhausted_at := none })) ∧
    (∀ st now t l, st.quota_exhausted = true → st.exhausted_at = some t →
      RETRY_PRIMARY_INTERVAL ≤ now - t →
      FallbackTtsClient.synthesize st now (.error .QuotaExhausted) l =
        (l, { st with exhausted_at := some now })) ∧
    (∀ st now t e l, st.quota_exhausted = true → st.exhausted_at = some t →
      RETRY_PRIMARY_INTERVAL ≤ now - t → e ≠ TtsError.QuotaExhausted →
      FallbackTtsClient.synthesize st now (.error e) l = (l, st)) := by
  refine ⟨rfl, ?_, ?_, ?_, ?_, ?_, ?_, ?_⟩
  · intro st now a l h
    simp [FallbackTtsClient.synthesize, h]
  · intro st now l h
    simp [FallbackTtsClient.synthesize, h]
  · intro st now e l h hne
    cases e <;> simp [FallbackTtsClient.synthesize, h] <;> simp at hne
  · intro st now t p l hq ht helapsed
    simp [FallbackTtsClient.synthesize, hq, ht, Nat.not_le.mpr helapsed]
  · intro st now t a l hq ht helapsed
    simp [FallbackTtsClient.synthesize, hq, ht, helapsed]
  · intro st now t l hq ht helapsed
    simp [FallbackTtsClient.synthesize, hq, ht, helapsed]
  · intro st now t e l hq ht helapsed hne
    cases e <;> simp [FallbackTtsClient.synthesize, hq, ht, helapsed] <;>
      simp at hne

/-- Witness for C2: a clear latch plus a quota-exhausted primary latches
with the current instant and hands back the secondary's audio (the
concrete values of the crate's own unit test). -/
theorem fallback_synthesize_policy_c2_witness :
    FallbackTtsClient.synthesize ⟨false, none⟩ 7
        (.error .QuotaExhausted) (.ok ⟨22050, 1, [1, 2, 3]⟩) =
      (.ok ⟨22050, 1, [1, 2, 3]⟩, ⟨true, some 7⟩) :=
  fallback_synthesize_policy_c2.2.2.1 ⟨false, none⟩ 7 (.ok ⟨22050, 1, [1, 2, 3]⟩) rfl

/-! ## C3: HLS variant selection -/

theorem bestVariant_foldl_spec (vs : List VariantStream) :
    ∀ u bw, ∃ u' bw',
      vs.foldl bestVariantStep (some (u, bw)) = some (u', bw') ∧
      ((u' = u ∧ bw' = bw) ∨ ∃ v ∈ vs, u' = v.uri ∧ bw' = effectiveBandwidth v) ∧
      bw' ≤ bw ∧ ∀ w ∈ vs, bw' ≤ effectiveBandwidth w := by
  induction vs with
  | nil =>
    intro u bw
    exact ⟨u, bw, rfl, Or.inl ⟨rfl, rfl⟩, le_refl _, by simp⟩
  | cons v rest ih =>
    intro u bw
    simp only [List.foldl_cons]
    by_cases hlt : effectiveBandwidth v < bw
    · have step_eq : bestVariantStep (some (u, bw)) v =
          some (v.uri, effectiveBandwidth v) := by
        simp [bestVariantStep, hlt]
      rw [step_eq]
      obtain ⟨u', bw', heq, horig, hle, hall⟩ := ih v.uri (effectiveBandwidth v)
      refine ⟨u', bw', heq, ?_, by omega, ?_⟩
      · rcases horig with ⟨h1, h2⟩ | ⟨w, hw, h1, h2⟩
        · exact Or.inr ⟨v, by simp, h1, h2⟩
        · exact Or.inr ⟨w, by simp [hw], h1, h2⟩
      · intro w hw
        rcases List.mem_cons.mp hw with rfl | hw
        · exact hle
        · exact hall w hw
    · have step_eq : bestVariantStep (some (u, bw)) v = some (u, bw) := by
        simp [bestVariantStep, hlt]
      rw [step_eq]
      obtain ⟨u', bw', heq, horig, hle, hall⟩ := ih u bw
      refine ⟨u', bw', heq, ?_, hle, ?_⟩
      · rcases horig with h | ⟨w, hw, h1, h2⟩
        · exact Or.inl h
        · exact Or.inr ⟨w, by simp [hw], h1, h2⟩
      · intro w hw
        rcases List.mem_cons.mp hw with rfl | hw
        · omega
        · exact hall w hw

theorem bestVariant_spec (vs : List VariantStream) (hne : vs ≠ []) :
    ∃ v ∈ vs, bestVariant vs = some (v.uri, effectiveBandwidth v) ∧
      ∀ w ∈ vs, effectiveBandwidth v ≤ effectiveBandwidth w := by
  cases vs with
  | nil => exact absurd rfl hne
  | cons v rest =>
    have hstep : bestVariantStep none v = some (v.uri, effectiveBandwidth v) := rfl
    obtain ⟨u', bw', heq, horig, hle, hall⟩ :=
      bestVariant_foldl_spec rest v.uri (effectiveBandwidth v)
    have hres : bestVariant (v :: rest) = some (u', bw') := by
      simp only [bestVariant, List.foldl_cons, hstep, heq]
    rcases horig with ⟨h1, h2⟩ | ⟨w, hw, h1, h2⟩
    · refine ⟨v, by simp, ?_, ?_⟩
      · rw [hres, h1, h2]
      · intro w hw
        rcases List.mem_cons.mp hw with rfl | hw
        · exact le_refl _
        · have := hall w hw
          omega
    · refine ⟨w, by simp [hw], ?_, ?_⟩
      · rw [hres, h1, h2]
      · intro w' hw'
        rcases List.mem_cons.mp hw' with rfl | hw'
        · omega
        · have := hall w' hw'
          omega

/-- Claim C3: with audio-only requested (the configuration the spec
describes, and the crate's default), `select_from_master` chooses an
audio alternative whenever an Audio-typed alternative with a URI exists —
preferring one whose URI contains the substring `audio`, otherwise the
first one — and absent any such alternative it chooses the variant with
the smallest effective bandwidth (`average_bandwidth` if present, else
`bandwidth`), erring with `NoUsableVariant` only when there are no
variants either. The chosen URI is subsequently joined against the
playlist's base URL by the caller. -/
theorem select_from_master_policy_c3 (mp : MasterPlaylist) :
    (audioAltUris mp ≠ [] →
      ∃ u, HlsVariantSelector.select_from_master true mp = .ok u ∧
        u ∈ audioAltUris mp ∧
        ((∃ v ∈ audioAltUris mp, hasSubstring v.toList "audio".toList = true) →
          hasSubstring u.toList "audio".toList = true)) ∧
    (audioAltUris mp = [] → mp.variants ≠ [] →
      ∃ v ∈ mp.variants,
        HlsVariantSelector.select_from_master true mp = .ok v.uri ∧
        ∀ w ∈ mp.variants, effectiveBandwidth v ≤ effectiveBandwidth w) ∧
    (audioAltUris mp = [] → mp.variants = [] →
      HlsVariantSelector.select_from_master true mp = .error .NoUsableVariant) := by
  refine ⟨?_, ?_, ?_⟩
  · intro hne
    cases hfind : (audioAltUris mp).find?
        (fun u => hasSubstring u.toList "audio".toList) with
    | some u =>
      have hsel : select_audio_only_from_master mp = some u := by
        unfold select_audio_only_from_master
        rw [hfind]
      refine ⟨u, ?_, ?_, ?_⟩
      · simp [HlsVariantSelector.select_from_master, hsel]
      · exact List.mem_of_find?_eq_some hfind
      · intro _
        have := List.find?_some hfind
        simpa using this
    | none =>
      cases hhead : (audioAltUris mp).head? with
      | none =>
        rw [List.head?_eq_none_iff] at hhead
        exact absurd hhead hne
      | some u0 =>
        have hsel : select_audio_only_from_master mp = some u0 := by
          unfold select_audio_only_from_master
          rw [hfind, hhead]
        refine ⟨u0, ?_, ?_, ?_⟩
        · simp [HlsVariantSelector.select_from_master, hsel]
        · exact List.mem_of_mem_head? hhead
        · rintro ⟨v, hv, hsub⟩
          have hv' := List.find?_eq_none.mp hfind v hv
          exact absurd hsub (by simpa using hv')
  · intro hempty hvne
    have hsel : select_audio_only_from_master mp = none := by
      unfold select_audio_only_from_master
      rw [hempty]
      rfl
    obtain ⟨v, hv, hbest, hmin⟩ := bestVariant_spec mp.variants hvne
    refine ⟨v, hv, ?_, hmin⟩
    simp [HlsVariantSelector.select_from_master, hsel, hbest]
  · intro hempty hvempty
    have hsel : select_audio_only_from_master mp = none := by
      unfold select_audio_only_from_master
      rw [hempty]
      rfl
    simp [HlsVariantSelector.select_from_master, hsel, hvempty, bestVariant]

/-- Witness for C3 at the crate's own master-playlist unit test. -/
theorem select_from_master_policy_c3_witness :
    ∃ u, HlsVariantSelector.select_from_master true
        ⟨[⟨"video_360p30.m3u8", 800000, none⟩], [⟨.Audio, some "audio_only.m3u8"⟩]⟩ = .ok u ∧
      u ∈ audioAltUris
        ⟨[⟨"video_360p30.m3u8", 800000, none⟩], [⟨.Audio, some "audio_only.m3u8"⟩]⟩ :=
  match (select_from_master_policy_c3
      ⟨[⟨"video_360p30.m3u8", 800000, none⟩], [⟨.Audio, some "audio_only.m3u8"⟩]⟩).1
      (by decide) with
  | ⟨u, h1, h2, _⟩ => ⟨u, h1, h2⟩

/-! ## C7: blank-audio guard -/

theorem play_warn_update (st : SinkState) (now : Nat) (a : TtsAudio) :
    ((AudioPlaybackSink.play st now a).1.warnedFlag = true →
      (AudioPlaybackSink.play st now a).2.lastWarn = some now ∧
      ∀ p, st.lastWarn = some p → p + BLANK_AUDIO_WARN_INTERVAL ≤ now) ∧
    ((AudioPlaybackSink.play st now a).1.warnedFlag = false →
      (AudioPlaybackSink.play st now a).2.lastWarn = st.lastWarn) := by
  obtain ⟨d, lw⟩ := st
  cases d with
  | true => simp [AudioPlaybackSink.play, PlayOutcome.warnedFlag]
  | false =>
    cases hi : isInvalidAudio a with
    | false => simp [AudioPlaybackSink.play, hi, PlayOutcome.warnedFlag]
    | true =>
      cases lw with
      | none => simp [AudioPlaybackSink.play, hi, shouldLog, PlayOutcome.warnedFlag]
      | some p =>
        by_cases hel : BLANK_AUDIO_WARN_INTERVAL ≤ now - p
        · simp only [AudioPlaybackSink.play, hi, shouldLog, if_pos hel,
            Bool.false_eq_true, if_false, PlayOutcome.warnedFlag]
          refine ⟨fun _ => ⟨rfl, ?_⟩, by simp⟩
          intro q hq
          obtain rfl : p = q := by simpa using hq
          simp only [BLANK_AUDIO_WARN_INTERVAL] at hel ⊢
          omega
        · simp [AudioPlaybackSink.play, hi, shouldLog, if_neg hel,
            PlayOutcome.warnedFlag]

theorem playTrace_warn_aux (calls : List (Nat × TtsAudio)) : ∀ st : SinkState,
    (warnInstants (playTrace st calls).1).Pairwise
      (fun x y => x + BLANK_AUDIO_WARN_INTERVAL ≤ y) ∧
    (∀ w ∈ warnInstants (playTrace st calls).1, ∀ p, st.lastWarn = some p →
      p + BLANK_AUDIO_WARN_INTERVAL ≤ w) := by
  induction calls with
  | nil => intro st; simp [playTrace, warnInstants]
  | cons c rest ih =>
    obtain ⟨now, a⟩ := c
    intro st
    have hstep := play_warn_update st now a
    have htr : playTrace st ((now, a) :: rest) =
        ((now, (AudioPlaybackSink.play st now a).1) ::
            (playTrace (AudioPlaybackSink.play st now a).2 rest).1,
          (playTrace (AudioPlaybackSink.play st now a).2 rest).2) := rfl
    rw [htr]
    cases hw : (AudioPlaybackSink.play st now a).1.warnedFlag with
    | true =>
      obtain ⟨hlw, hgap⟩ := hstep.1 hw
      have ihr := ih (AudioPlaybackSink.play st now a).2
      have hW : warnInstants ((now, (AudioPlaybackSink.play st now a).1) ::
          (playTrace (AudioPlaybackSink.play st now a).2 rest).1) =
          now :: warnInstants (playTrace (AudioPlaybackSink.play st now a).2 rest).1 := by
        simp [warnInstants, hw]
      rw [hW]
      constructor
      · refine List.Pairwise.cons ?_ ihr.1
        intro w hwmem
        exact ihr.2 w hwmem now hlw
      · intro w hwmem p hp
        rcases List.mem_cons.mp hwmem with rfl | hwmem
        · exact hgap p hp
        · have h1 := ihr.2 w hwmem now hlw
          have h2 := hgap p hp
          omega
    | false =>
      have hlw := hstep.2 hw
      have ihr := ih (AudioPlaybackSink.play st now a).2
      have hW : warnInstants ((now, (AudioPlaybackSink.play st now a).1) ::
          (playTrace (AudioPlaybackSink.play st now a).2 rest).1) =
          warnInstants (playTrace (AudioPlaybackSink.play st now a).2 rest).1 := by
        simp [warnInstants, hw]
      rw [hW]
      refine ⟨ihr.1, ?_⟩
      intro w hwmem p hp
      exact ihr.2 w hwmem p (by rw [hlw, hp])

/-- Claim C7: for every `TtsAudio` with `sample_rate_hz == 0`,
`channels == 0`, empty samples, or a sample count not divisible by
`channels`, `AudioPlaybackSink::play` takes the early `Ok(())` return
before `connect_sink`, so no output stream is opened and nothing is
appended to any sink, the only state change being the warn limiter; and
across any sequence of calls on a fresh sink, warning instants are
pairwise at least one 5-second rate-limit window apart, so at most one
warning is emitted per window. -/
theorem playback_invalid_audio_c7 :
    (∀ st now a, isInvalidAudio a = true → st.disabled = false →
      AudioPlaybackSink.play st now a =
        (.earlyOkInvalid (shouldLog BLANK_AUDIO_WARN_INTERVAL st.lastWarn now).1,
         { st with lastWarn := (shouldLog BLANK_AUDIO_WARN_INTERVAL st.lastWarn now).2 })) ∧
    (∀ st now a, isInvalidAudio a = true →
      (AudioPlaybackSink.play st now a).1 ≠ .proceedToDevice) ∧
    (∀ calls : List (Nat × TtsAudio),
      (warnInstants (playTrace AudioPlaybackSink.new calls).1).Pairwise
        (fun x y => x + BLANK_AUDIO_WARN_INTERVAL ≤ y)) := by
  refine ⟨?_, ?_, ?_⟩
  · intro st now a hi hd
    simp [AudioPlaybackSink.play, hi, hd]
  · intro st now a hi
    by_cases hd : st.disabled = true
    · simp [AudioPlaybackSink.play, hd]
    · rw [Bool.not_eq_true] at hd
      simp [AudioPlaybackSink.play, hd, hi]
  · intro calls
    exact (playTrace_warn_aux calls AudioPlaybackSink.new).1

/-- Witness for C7: zero-sample-rate audio on a fresh sink is skipped with
a first (unsuppressed) warning and only the limiter state changes. -/
theorem playback_invalid_audio_c7_witness :
    AudioPlaybackSink.play AudioPlaybackSink.new 3 ⟨0, 1, [1]⟩ =
      (.earlyOkInvalid (shouldLog BLANK_AUDIO_WARN_INTERVAL none 3).1,
       { AudioPlaybackSink.new with
          lastWarn := (shouldLog BLANK_AUDIO_WARN_INTERVAL none 3).2 }) :=
  playback_invalid_audio_c7.1 AudioPlaybackSink.new 3 ⟨0, 1, [1]⟩ (by decide) rfl

/-! ## C4 and C10: retry with backoff -/

theorem retryAux_spec {E T : Type} (f : Nat → Except E T) (retryable : E → Bool)
    (delay : Nat → Nat) (maxA : Nat) :
    ∀ fuel attempt, 1 ≤ fuel → fuel + attempt = maxA + 1 →
      (1 ≤ (retryAux f retryable delay maxA attempt fuel).2.1 ∧
        (retryAux f retryable delay maxA attempt fuel).2.1 ≤ fuel) ∧
      (retryAux f retryable delay maxA attempt fuel).1 =
        some (f (attempt + (retryAux f retryable delay maxA attempt fuel).2.1 - 1)) ∧
      (∀ j, attempt ≤ j →
        j < attempt + (retryAux f retryable delay maxA attempt fuel).2.1 - 1 →
        ∃ e, f j = .error e ∧ retryable e = true) ∧
      (∀ e, f (attempt + (retryAux f retryable delay maxA attempt fuel).2.1 - 1) =
          .error e →
        attempt + (retryAux f retryable delay maxA attempt fuel).2.1 - 1 = maxA ∨
          retryable e = false) ∧
      (retryAux f retryable delay maxA attempt fuel).2.2 =
        (List.range ((retryAux f retryable delay maxA attempt fuel).2.1 - 1)).map
          (fun j => delay (attempt + j)) := by
  intro fuel
  induction fuel with
  | zero => intro attempt h1 _; omega
  | succ fu ih =>
    intro attempt _ hsum
    cases hf : f attempt with
    | ok v =>
      have hr : retryAux f retryable delay maxA attempt (fu + 1) =
          (some (.ok v), 1, []) := by
        simp [retryAux, hf]
      rw [hr]
      dsimp only
      refine ⟨⟨le_refl 1, by omega⟩, ?_, ?_, ?_, by simp⟩
      · rw [show attempt + 1 - 1 = attempt from by omega, hf]
      · intro j h1 h2; omega
      · intro e he
        rw [show attempt + 1 - 1 = attempt from by omega, hf] at he
        exact absurd he (by simp)
    | error e =>
      by_cases hcond : attempt < maxA ∧ retryable e = true
      · have hr : retryAux f retryable delay maxA attempt (fu + 1) =
            ((retryAux f retryable delay maxA (attempt + 1) fu).1,
             (retryAux f retryable delay maxA (attempt + 1) fu).2.1 + 1,
             delay attempt :: (retryAux f retryable delay maxA (attempt + 1) fu).2.2) := by
          simp [retryAux, hf, hcond]
        obtain ⟨⟨hc1, hc2⟩, hB, hC, hD, hE⟩ :=
          ih (attempt + 1) (by omega) (by omega)
        rw [hr]
        dsimp only
        refine ⟨⟨by omega, by omega⟩, ?_, ?_, ?_, ?_⟩
        · rw [show attempt + ((retryAux f retryable delay maxA (attempt + 1) fu).2.1 + 1) - 1 =
            attempt + 1 + (retryAux f retryable delay maxA (attempt + 1) fu).2.1 - 1 from by omega]
          exact hB
        · intro j hj1 hj2
          rcases Nat.eq_or_lt_of_le hj1 with rfl | hj1
          · exact ⟨e, hf, hcond.2⟩
          · exact hC j (by omega) (by omega)
        · intro e' he'
          rw [show attempt + ((retryAux f retryable delay maxA (attempt + 1) fu).2.1 + 1) - 1 =
            attempt + 1 + (retryAux f retryable delay maxA (attempt + 1) fu).2.1 - 1 from by omega] at he'
          rcases hD e' he' with h | h
          · left; omega
          · right; exact h
        · obtain ⟨c, hc⟩ : ∃ c, (retryAux f retryable delay maxA (attempt + 1) fu).2.1 = c + 1 :=
            ⟨(retryAux f retryable delay maxA (attempt + 1) fu).2.1 - 1, by omega⟩
          rw [hE, hc]
          rw [show c + 1 + 1 - 1 = c + 1 from by omega,
            show c + 1 - 1 = c from by omega]
          rw [List.range_succ_eq_map]
          simp only [List.map_cons, List.map_map, Nat.add_zero]
          refine congrArg _ ?_
          apply List.map_congr_left
          intro j _
          simp only [Function.comp]
          congr 1
          omega
      · have hr : retryAux f retryable delay maxA attempt (fu + 1) =
            (some (.error e), 1, []) := by
          simp only [retryAux, hf]
          rw [if_neg hcond]
        rw [hr]
        dsimp only
        refine ⟨⟨le_refl 1, by omega⟩, ?_, ?_, ?_, by simp⟩
        · rw [show attempt + 1 - 1 = attempt from by omega, hf]
        · intro j h1 h2; omega
        · intro e' he'
          rw [show attempt + 1 - 1 = attempt from by omega, hf] at he'
          have hee : e = e' := by simpa using he'
          subst hee
          rw [Classical.not_and_iff_or_not_not] at hcond
          rcases hcond with h | h
          · left; omega
          · right; simpa using h

theorem ratToU64_mono {p q : ℚ} (h : p ≤ q) : ratToU64 p ≤ ratToU64 q :=
  min_le_min (Int.toNat_le_toNat (Int.floor_le_floor h)) (le_refl _)

theorem delay_for_attempt_mono (cfg : RetryConfig)
    (hm : 1 ≤ cfg.backoff_multiplier) (i j : Nat) (hi : 1 ≤ i) (hij : i ≤ j) :
    cfg.delay_for_attempt i ≤ cfg.delay_for_attempt j := by
  unfold RetryConfig.delay_for_attempt
  refine min_le_min (Nat.mul_le_mul_right _ (ratToU64_mono ?_)) (le_refl _)
  refine mul_le_mul_of_nonneg_left ?_ (by positivity)
  exact zpow_le_zpow_right₀ hm (by omega)

theorem delay_for_attempt_le_max (cfg : RetryConfig) (i : Nat) :
    cfg.delay_for_attempt i ≤ cfg.max_delay :=
  min_le_right _ _

/-- Claim C4: for every `RetryConfig` with `max_attempts ≥ 1`,
`retry_with_backoff` invokes the operation between 1 and `max_attempts`
times; it returns the outcome of the final invocation (so the first
success, or the last error on exhaustion); every earlier invocation
failed with an error the classifier deemed retryable (no attempt follows
a non-retryable error); a final error means either `max_attempts` was
reached or the error was not retryable; the sleeps between attempts `i`
and `i+1` are exactly `delay_for_attempt i`, i.e. the capped
`initial_delay × multiplier^(i-1)`; every sleep is at most `max_delay`;
and for `multiplier ≥ 1` the sleep sequence is nondecreasing. -/
theorem retry_with_backoff_policy_c4 {E T : Type} (cfg : RetryConfig)
    (f : Nat → Except E T) (retryable : E → Bool)
    (h : 1 ≤ cfg.max_attempts) :
    (1 ≤ (retry_with_backoff cfg f retryable).2.1 ∧
      (retry_with_backoff cfg f retryable).2.1 ≤ cfg.max_attempts) ∧
    (retry_with_backoff cfg f retryable).1 =
      some (f (retry_with_backoff cfg f retryable).2.1) ∧
    (∀ j, 1 ≤ j → j < (retry_with_backoff cfg f retryable).2.1 →
      ∃ e, f j = .error e ∧ retryable e = true) ∧
    (∀ e, f (retry_with_backoff cfg f retryable).2.1 = .error e →
      (retry_with_backoff cfg f retryable).2.1 = cfg.max_attempts ∨
        retryable e = false) ∧
    (retry_with_backoff cfg f retryable).2.2 =
      (List.range ((retry_with_backoff cfg f retryable).2.1 - 1)).map
        (fun j => cfg.delay_for_attempt (j + 1)) ∧
    (∀ d ∈ (retry_with_backoff cfg f retryable).2.2, d ≤ cfg.max_delay) ∧
    (1 ≤ cfg.backoff_multiplier →
      (retry_with_backoff cfg f retryable).2.2.Chain' (· ≤ ·)) := by
  have hspec := retryAux_spec f retryable cfg.delay_for_attempt
    cfg.max_attempts cfg.max_attempts 1 h (by omega)
  obtain ⟨⟨hc1, hc2⟩, hB, hC, hD, hE⟩ := hspec
  have hcalls : (retry_with_backoff cfg f retryable).2.1 =
      (retryAux f retryable cfg.delay_for_attempt cfg.max_attempts 1
        cfg.max_attempts).2.1 := rfl
  have hE' : (retry_with_backoff cfg f retryable).2.2 =
      (List.range ((retry_with_backoff cfg f retryable).2.1 - 1)).map
        (fun j => cfg.delay_for_attempt (j + 1)) := by
    rw [show (retry_with_backoff cfg f retryable).2.2 =
      (retryAux f retryable cfg.delay_for_attempt cfg.max_attempts 1
        cfg.max_attempts).2.2 from rfl, hE, hcalls]
    apply List.map_congr_left
    intro j _
    congr 1
    omega
  refine ⟨⟨hc1, hc2⟩, ?_, ?_, ?_, hE', ?_, ?_⟩
  · rw [show (retry_with_backoff cfg f retryable).1 =
      (retryAux f retryable cfg.delay_for_attempt cfg.max_attempts 1
        cfg.max_attempts).1 from rfl, hB, hcalls]
    congr 2
    omega
  · intro j hj1 hj2
    exact hC j (by omega) (by rw [hcalls] at hj2; omega)
  · intro e he
    have he' : f (1 + (retryAux f retryable cfg.delay_for_attempt
        cfg.max_attempts 1 cfg.max_attempts).2.1 - 1) = .error e := by
      rw [show 1 + (retryAux f retryable cfg.delay_for_attempt
        cfg.max_attempts 1 cfg.max_attempts).2.1 - 1 =
        (retry_with_backoff cfg f retryable).2.1 from by rw [hcalls]; omega]
      exact he
    rcases hD e he' with h1 | h1
    · left; rw [hcalls]; omega
    · right; exact h1
  · intro d hd
    rw [hE'] at hd
    obtain ⟨j, _, rfl⟩ := List.mem_map.mp hd
    exact delay_for_attempt_le_max cfg (j + 1)
  · intro hm
    rw [hE']
    refine List.Pairwise.chain' ?_
    refine (List.pairwise_map).mpr ?_
    refine List.Pairwise.imp ?_ (List.pairwise_lt_range _)
    intro a b hab
    exact delay_for_attempt_mono cfg hm (a + 1) (b + 1) (by omega) (by omega)

/-- Witness for C4 at a concrete run: three attempts, two failing
retryably, sleeps of 100 ms and 200 ms, success returned on the third. -/
theorem retry_with_backoff_policy_c4_witness :
    (1 ≤ (retry_with_backoff (E := String) (T := Nat)
        ⟨3, 100000000, 2, 10000000000⟩
        (fun i => if i < 3 then .error "e" else .ok i) (fun _ => true)).2.1 ∧
      (retry_with_backoff (E := String) (T := Nat)
        ⟨3, 100000000, 2, 10000000000⟩
        (fun i => if i < 3 then .error "e" else .ok i) (fun _ => true)).2.1 ≤ 3) ∧
    (1 ≤ (1 : ℚ) → (retry_with_backoff (E := String) (T := Nat)
        ⟨3, 100000000, 2, 10000000000⟩
        (fun i => if i < 3 then .error "e" else .ok i)
        (fun _ => true)).2.2.Chain' (· ≤ ·)) := by
  have h := retry_with_backoff_policy_c4 (E := String) (T := Nat)
    ⟨3, 100000000, 2, 10000000000⟩
    (fun i => if i < 3 then .error "e" else .ok i) (fun _ => true) (by decide)
  exact ⟨h.1, fun _ => h.2.2.2.2.2.2 (by norm_num)⟩

/-- Claim C10: the final `last_error.unwrap()` of `retry_with_backoff`
cannot panic when `max_attempts ≥ 1` (every run produces a result), but
with `max_attempts == 0` the attempt loop never runs and the call reaches
`unwrap` on `None` — a panic, modelled as the `none` outcome — instead of
returning a `Result`. -/
theorem retry_unwrap_panic_c10 {E T : Type} :
    (∀ (cfg : RetryConfig) (f : Nat → Except E T) (retryable : E → Bool),
      1 ≤ cfg.max_attempts →
      ((retry_with_backoff cfg f retryable).1).isSome = true) ∧
    (∀ (cfg : RetryConfig) (f : Nat → Except E T) (retryable : E → Bool),
      cfg.max_attempts = 0 →
      (retry_with_backoff cfg f retryable).1 = none) := by
  constructor
  · intro cfg f retryable h
    have hB := (retryAux_spec f retryable cfg.delay_for_attempt
      cfg.max_attempts cfg.max_attempts 1 h (by omega)).2.1
    rw [show (retry_with_backoff cfg f retryable).1 =
      (retryAux f retryable cfg.delay_for_attempt cfg.max_attempts 1
        cfg.max_attempts).1 from rfl, hB]
    rfl
  · intro cfg f retryable h
    rw [show (retry_with_backoff cfg f retryable).1 =
      (retryAux f retryable cfg.delay_for_attempt cfg.max_attempts 1
        cfg.max_attempts).1 from rfl, h]
    rfl

/-- Witness for C10: a one-attempt config yields a result; a zero-attempt
config reaches the panic path. -/
theorem retry_unwrap_panic_c10_witness :
    ((retry_with_backoff (E := String) (T := Nat)
        ⟨1, 100000000, 2, 10000000000⟩ (fun i => .ok i)
        (fun _ => true)).1).isSome = true ∧
    (retry_with_backoff (E := String) (T := Nat)
        ⟨0, 100000000, 2, 10000000000⟩ (fun i => .ok i)
        (fun _ => true)).1 = none :=
  ⟨(retry_unwrap_panic_c10 (E := String) (T := Nat)).1
      ⟨1, 100000000, 2, 10000000000⟩ (fun i => .ok i) (fun _ => true) (by decide),
   (retry_unwrap_panic_c10 (E := String) (T := Nat)).2
      ⟨0, 100000000, 2, 10000000000⟩ (fun i => .ok i) (fun _ => true) rfl⟩

/-! ## C1 and C5: media playlist polling -/

theorem range'_getLast (a k : Nat) (hk : 0 < k) :
    (List.range' a k).getLast? = some (a + k - 1) := by
  obtain ⟨j, rfl⟩ : ∃ j, k = j + 1 := ⟨k - 1, by omega⟩
  rw [List.range'_concat, List.getLast?_concat]
  congr 1
  omega

theorem collectSegments_ok (join : String → Option String) (next seq0 : Nat) :
    ∀ (segs : List MediaSegment) (i0 : Nat),
      (∀ s ∈ segs, (join s.uri).isSome = true) →
      seq0 + i0 + segs.length ≤ U64SIZE →
      ∃ out, collectSegments join next seq0 segs i0 = .ok out ∧
        out.map SegmentInfo.sequence =
          List.range' (max next (seq0 + i0))
            (seq0 + i0 + segs.length - max next (seq0 + i0)) := by
  intro segs
  induction segs with
  | nil =>
    intro i0 _ _
    refine ⟨[], rfl, ?_⟩
    rw [show seq0 + i0 + List.length ([] : List MediaSegment) -
        max next (seq0 + i0) = 0 from by simp only [List.length_nil]; omega]
    rfl
  | cons seg rest ih =>
    intro i0 hjoin hbound
    have hlen : (seg :: rest).length = rest.length + 1 := rfl
    rw [hlen] at hbound
    have hwrap : u64wrapAdd seq0 i0 = seq0 + i0 := by
      unfold u64wrapAdd U64SIZE
      unfold U64SIZE at hbound
      exact Nat.mod_eq_of_lt (by omega)
    obtain ⟨out, hout, hmap⟩ := ih (i0 + 1)
      (fun s hs => hjoin s (List.mem_cons_of_mem _ hs))
      (by omega)
    by_cases hskip : seq0 + i0 < next
    · have hstep : collectSegments join next seq0 (seg :: rest) i0 =
          collectSegments join next seq0 rest (i0 + 1) := by
        simp only [collectSegments, hwrap]
        rw [if_pos hskip]
      refine ⟨out, hstep ▸ hout, ?_⟩
      rw [hmap]
      rw [show max next (seq0 + (i0 + 1)) = next from by omega,
        show max next (seq0 + i0) = next from by omega]
      congr 1
      rw [hlen]
      omega
    · have hjs : (join seg.uri).isSome = true := hjoin seg (by simp)
      obtain ⟨url, hurl⟩ := Option.isSome_iff_exists.mp hjs
      have hstep : collectSegments join next seq0 (seg :: rest) i0 =
          .ok (⟨seq0 + i0, url, segmentDurationMs seg.duration⟩ :: out) := by
        simp only [collectSegments, hwrap]
        rw [if_neg hskip, hurl, hout]
        rfl
      refine ⟨_, hstep, ?_⟩
      rw [List.map_cons, hmap]
      rw [show max next (seq0 + (i0 + 1)) = seq0 + i0 + 1 from by omega,
        show max next (seq0 + i0) = seq0 + i0 from by omega,
        show seq0 + (i0 + 1) + rest.length - (seq0 + i0 + 1) = rest.length from by omega,
        hlen,
        show seq0 + i0 + (rest.length + 1) - (seq0 + i0) = rest.length + 1 from by omega]
      rw [List.range'_succ]

theorem u64satAdd_small (x : Nat) (h : x + 1 < U64SIZE) : u64satAdd x 1 = x + 1 := by
  unfold u64satAdd
  unfold U64SIZE at h ⊢
  omega

theorem getLast_of_range_map (out : List SegmentInfo) (s k : Nat) (hk : 0 < k)
    (hmap : out.map SegmentInfo.sequence = List.range' s k) :
    ∃ last, out.getLast? = some last ∧ last.sequence = s + k - 1 := by
  have h1 : Option.map SegmentInfo.sequence out.getLast? = some (s + k - 1) := by
    rw [← List.getLast?_map, hmap, range'_getLast s k hk]
  cases hl : out.getLast? with
  | none => rw [hl] at h1; simp at h1
  | some last =>
    rw [hl] at h1
    exact ⟨last, rfl, by simpa using h1⟩

theorem extract_reduce (join : String → Option String) (b : Nat)
    (mp : MediaPlaylist) (ns : Option Nat) (hne : ¬ mp.segments.length = 0) :
    MediaPlaylistState.extract_new_segments join ⟨ns, b⟩ mp =
      (let st1 : MediaPlaylistState :=
        match ns with
        | none => ⟨some (u64wrapAdd mp.media_sequence
            (mp.segments.length - max b 1)), b⟩
        | some next =>
          if next < mp.media_sequence then ⟨some mp.media_sequence, b⟩
          else ⟨some next, b⟩
      match collectSegments join (st1.next_sequence.getD 0) mp.media_sequence
          mp.segments 0 with
      | .error e => (.error e, st1)
      | .ok out =>
        match out.getLast? with
        | some last =>
          (.ok out, { st1 with next_sequence := some (u64satAdd last.sequence 1) })
        | none => (.ok out, st1)) := by
  simp only [MediaPlaylistState.extract_new_segments]
  rw [if_neg hne]
  cases ns with
  | none => rfl
  | some next => by_cases hlt : next < mp.media_sequence <;> simp [hlt]

theorem extract_new_segments_warm (join : String → Option String)
    (b : Nat) (mp : MediaPlaylist) (next : Nat)
    (hn : 0 < mp.segments.length)
    (hjoin : ∀ s ∈ mp.segments, (join s.uri).isSome = true)
    (hbound : mp.media_sequence + mp.segments.length < U64SIZE) :
    ∃ out,
      (MediaPlaylistState.extract_new_segments join ⟨some next, b⟩ mp).1 =
        .ok out ∧
      out.map SegmentInfo.sequence =
        List.range' (max next mp.media_sequence)
          (mp.media_sequence + mp.segments.length - max next mp.media_sequence) ∧
      (MediaPlaylistState.extract_new_segments join ⟨some next, b⟩ mp).2 =
        ⟨some (max next (mp.media_sequence + mp.segments.length)), b⟩ := by
  have hne : ¬ mp.segments.length = 0 := by omega
  rw [extract_reduce join b mp (some next) hne]
  by_cases hlt : next < mp.media_sequence
  · obtain ⟨out, hout, hmap⟩ := collectSegments_ok join mp.media_sequence
      mp.media_sequence mp.segments 0 hjoin (by omega)
    rw [Nat.add_zero] at hmap
    rw [show max mp.media_sequence mp.media_sequence = mp.media_sequence
      from by omega] at hmap
    have hred : (if next < mp.media_sequence
        then (⟨some mp.media_sequence, b⟩ : MediaPlaylistState)
        else ⟨some next, b⟩) = ⟨some mp.media_sequence, b⟩ := if_pos hlt
    dsimp only
    rw [hred]
    dsimp only [Option.getD]
    rw [hout]
    dsimp only
    obtain ⟨last, hlast, hseq⟩ := getLast_of_range_map out mp.media_sequence
      (mp.media_sequence + mp.segments.length - mp.media_sequence)
      (by omega) hmap
    rw [hlast]
    dsimp only
    refine ⟨out, rfl, ?_, ?_⟩
    · rw [hmap]
      rw [show max next mp.media_sequence = mp.media_sequence from by omega]
    · dsimp only
      rw [hseq, u64satAdd_small _ (by omega)]
      rw [show mp.media_sequence + (mp.media_sequence + mp.segments.length -
        mp.media_sequence) - 1 + 1 = max next (mp.media_sequence + mp.segments.length)
        from by omega]
  · obtain ⟨out, hout, hmap⟩ := collectSegments_ok join next
      mp.media_sequence mp.segments 0 hjoin (by omega)
    rw [Nat.add_zero] at hmap
    have hred : (if next < mp.media_sequence
        then (⟨some mp.media_sequence, b⟩ : MediaPlaylistState)
        else ⟨some next, b⟩) = ⟨some next, b⟩ := if_neg hlt
    dsimp only
    rw [hred]
    dsimp only [Option.getD]
    rw [hout]
    dsimp only
    by_cases hcaught : mp.media_sequence + mp.segments.length ≤ next
    · have hzero : mp.media_sequence + mp.segments.length -
          max next mp.media_sequence = 0 := by omega
      rw [hzero] at hmap
      have hnil : out = [] := by
        have := hmap
        rw [show List.range' (max next mp.media_sequence) 0 = [] from rfl] at this
        exact List.map_eq_nil.mp this
      subst hnil
      refine ⟨[], rfl, ?_, ?_⟩
      · rw [hzero]
        rfl
      · rw [show max next (mp.media_sequence + mp.segments.length) = next
          from by omega]
        rfl
    · obtain ⟨last, hlast, hseq⟩ := getLast_of_range_map out
        (max next mp.media_sequence)
        (mp.media_sequence + mp.segments.length - max next mp.media_sequence)
        (by omega) hmap
      rw [hlast]
      dsimp only
      refine ⟨out, rfl, hmap, ?_⟩
      dsimp only
      rw [hseq, u64satAdd_small _ (by omega)]
      rw [show max next mp.media_sequence + (mp.media_sequence +
        mp.segments.length - max next mp.media_sequence) - 1 + 1 =
        max next (mp.media_sequence + mp.segments.length) from by omega]

theorem extract_new_segments_cold (join : String → Option String)
    (b : Nat) (mp : MediaPlaylist)
    (hn : 0 < mp.segments.length)
    (hjoin : ∀ s ∈ mp.segments, (join s.uri).isSome = true)
    (hbound : mp.media_sequence + mp.segments.length < U64SIZE) :
    ∃ out,
      (MediaPlaylistState.extract_new_segments join ⟨none, b⟩ mp).1 = .ok out ∧
      out.map SegmentInfo.sequence =
        List.range' (mp.media_sequence + (mp.segments.length - max b 1))
          (min mp.segments.length (max b 1)) ∧
      (MediaPlaylistState.extract_new_segments join ⟨none, b⟩ mp).2 =
        ⟨some (mp.media_sequence + mp.segments.length), b⟩ := by
  have hne : ¬ mp.segments.length = 0 := by omega
  rw [extract_reduce join b mp none hne]
  dsimp only
  have hwrap : u64wrapAdd mp.media_sequence (mp.segments.length - max b 1) =
      mp.media_sequence + (mp.segments.length - max b 1) := by
    unfold u64wrapAdd
    unfold U64SIZE at hbound ⊢
    exact Nat.mod_eq_of_lt (by omega)
  rw [hwrap]
  obtain ⟨out, hout, hmap⟩ := collectSegments_ok join
    (mp.media_sequence + (mp.segments.length - max b 1))
    mp.media_sequence mp.segments 0 hjoin (by omega)
  rw [Nat.add_zero] at hmap
  rw [show max (mp.media_sequence + (mp.segments.length - max b 1))
    mp.media_sequence = mp.media_sequence + (mp.segments.length - max b 1)
    from by omega] at hmap
  rw [show mp.media_sequence + mp.segments.length -
    (mp.media_sequence + (mp.segments.length - max b 1)) =
    min mp.segments.length (max b 1) from by omega] at hmap
  dsimp only [Option.getD]
  rw [hout]
  dsimp only
  obtain ⟨last, hlast, hseq⟩ := getLast_of_range_map out
    (mp.media_sequence + (mp.segments.length - max b 1))
    (min mp.segments.length (max b 1)) (by omega) hmap
  rw [hlast]
  dsimp only
  refine ⟨out, rfl, hmap, ?_⟩
  rw [hseq, u64satAdd_small _ (by omega)]
  rw [show mp.media_sequence + (mp.segments.length - max b 1) +
    min mp.segments.length (max b 1) - 1 + 1 =
    mp.media_sequence + mp.segments.length from by omega]

/-- Counterexample for C5: with `initial_backlog_segments = 0` the code
clamps the backlog to 1 (`self.initial_backlog_segments.max(1)`), so the
first poll of a one-segment playlist emits 1 segment where the claim's
formula `min(n, b) = min(1, 0) = 0` says none would be emitted. -/
theorem extract_cold_backlog_c5_counterexample :
    (MediaPlaylistState.extract_new_segments (fun u => some u)
        ⟨none, 0⟩ ⟨0, [⟨"s0.ts", 2⟩]⟩).1.map List.length ≠
      .ok (min 1 0) ∧
    (MediaPlaylistState.extract_new_segments (fun u => some u)
        ⟨none, 0⟩ ⟨0, [⟨"s0.ts", 2⟩]⟩).1.map List.length = .ok 1 := by
  constructor
  · intro h
    exact absurd h (by decide)
  · decide

/-- Claim C5 as amended: on the first poll observing a non-empty media
playlist, the poller uses the effective backlog `b' = max(b, 1)` — the
code clamps `initial_backlog_segments` to at least one — setting
`next_sequence = seq0 + (n - b')` before emission, so it emits exactly the
last `min(n, b')` segments of the first playlist (which is the claim's
`min(n, b)` for every `b ≥ 1`, but one segment instead of none for
`b = 0`), and it leaves `next_sequence = seq0 + n`. -/
theorem extract_cold_backlog_c5 (join : String → Option String)
    (b : Nat) (mp : MediaPlaylist)
    (hn : 0 < mp.segments.length)
    (hjoin : ∀ s ∈ mp.segments, (join s.uri).isSome = true)
    (hbound : mp.media_sequence + mp.segments.length < U64SIZE) :
    ∃ out,
      (MediaPlaylistState.extract_new_segments join ⟨none, b⟩ mp).1 = .ok out ∧
      out.length = min mp.segments.length (max b 1) ∧
      out.map SegmentInfo.sequence =
        List.range' (mp.media_sequence + (mp.segments.length - max b 1))
          (min mp.segments.length (max b 1)) ∧
      (MediaPlaylistState.extract_new_segments join ⟨none, b⟩ mp).2 =
        ⟨some (mp.media_sequence + mp.segments.length), b⟩ := by
  obtain ⟨out, hout, hmap, hst⟩ :=
    extract_new_segments_cold join b mp hn hjoin hbound
  refine ⟨out, hout, ?_, hmap, hst⟩
  have := congrArg List.length hmap
  simpa using this

/-- Witness for C5 at the crate's own first-poll unit test: backlog 1,
playlist `media_sequence = 100` with three segments, emitting exactly the
one live-edge segment `102`. -/
theorem extract_cold_backlog_c5_witness :
    ∃ out,
      (MediaPlaylistState.extract_new_segments (fun u => some u)
          ⟨none, 1⟩ ⟨100, [⟨"s100.ts", 2⟩, ⟨"s101.ts", 2⟩, ⟨"s102.ts", 2⟩]⟩).1 =
        .ok out ∧
      out.length = min 3 (max 1 1) ∧
      out.map SegmentInfo.sequence =
        List.range' (100 + (3 - max 1 1)) (min 3 (max 1 1)) ∧
      (MediaPlaylistState.extract_new_segments (fun u => some u)
          ⟨none, 1⟩ ⟨100, [⟨"s100.ts", 2⟩, ⟨"s101.ts", 2⟩, ⟨"s102.ts", 2⟩]⟩).2 =
        ⟨some (100 + 3), 1⟩ :=
  extract_cold_backlog_c5 (fun u => some u) 1
    ⟨100, [⟨"s100.ts", 2⟩, ⟨"s101.ts", 2⟩, ⟨"s102.ts", 2⟩]⟩
    (by decide) (by intro s _; rfl) (by decide)

theorem extract_new_segments_facts (join : String → Option String)
    (st : MediaPlaylistState) (mp : MediaPlaylist)
    (hjoin : ∀ s ∈ mp.segments, (join s.uri).isSome = true)
    (hbound : mp.media_sequence + mp.segments.length < U64SIZE) :
    ((okList (st.extract_new_segments join mp).1).map
      SegmentInfo.sequence).Pairwise (· < ·) ∧
    (∀ q ∈ okList (st.extract_new_segments join mp).1, ∀ p,
      st.next_sequence = some p → p ≤ q.sequence) ∧
    (∀ q ∈ okList (st.extract_new_segments join mp).1, ∀ f,
      (st.extract_new_segments join mp).2.next_sequence = some f →
        q.sequence < f) ∧
    (∀ p, st.next_sequence = some p → ∃ f,
      (st.extract_new_segments join mp).2.next_sequence = some f ∧ p ≤ f) ∧
    ((st.extract_new_segments join mp).2.next_sequence = none →
      st.next_sequence = none ∧
        okList (st.extract_new_segments join mp).1 = []) := by
  obtain ⟨ns, b⟩ := st
  by_cases hn : mp.segments.length = 0
  · have hr : MediaPlaylistState.extract_new_segments join ⟨ns, b⟩ mp =
        (.ok [], ⟨ns, b⟩) := by
      simp only [MediaPlaylistState.extract_new_segments]
      rw [if_pos hn]
    rw [hr]
    refine ⟨by simp [okList], by simp [okList], by simp [okList], ?_, ?_⟩
    · intro p hp
      exact ⟨p, hp, le_refl p⟩
    · intro h
      exact ⟨h, rfl⟩
  · cases ns with
    | none =>
      obtain ⟨out, hout, hmap, hst⟩ :=
        extract_new_segments_cold join b mp (by omega) hjoin hbound
      have hok : okList (MediaPlaylistState.extract_new_segments join
          ⟨none, b⟩ mp).1 = out := by rw [hout]; rfl
      rw [hok, hst]
      refine ⟨?_, by simp, ?_, by simp, by simp⟩
      · rw [hmap]
        exact List.pairwise_lt_range' _ _
      · intro q hq f hf
        obtain rfl : mp.media_sequence + mp.segments.length = f :=
          Option.some.inj hf
        have hm : q.sequence ∈ out.map SegmentInfo.sequence :=
          List.mem_map_of_mem _ hq
        rw [hmap] at hm
        have := List.mem_range'_1.mp hm
        omega
    | some next =>
      obtain ⟨out, hout, hmap, hst⟩ :=
        extract_new_segments_warm join b mp next (by omega) hjoin hbound
      have hok : okList (MediaPlaylistState.extract_new_segments join
          ⟨some next, b⟩ mp).1 = out := by rw [hout]; rfl
      rw [hok, hst]
      refine ⟨?_, ?_, ?_, ?_, by simp⟩
      · rw [hmap]
        exact List.pairwise_lt_range' _ _
      · intro q hq p hp
        obtain rfl : next = p := Option.some.inj hp
        have hm : q.sequence ∈ out.map SegmentInfo.sequence :=
          List.mem_map_of_mem _ hq
        rw [hmap] at hm
        have := List.mem_range'_1.mp hm
        omega
      · intro q hq f hf
        obtain rfl : max next (mp.media_sequence + mp.segments.length) = f :=
          Option.some.inj hf
        have hm : q.sequence ∈ out.map SegmentInfo.sequence :=
          List.mem_map_of_mem _ hq
        rw [hmap] at hm
        have := List.mem_range'_1.mp hm
        omega
      · intro p hp
        obtain rfl : next = p := Option.some.inj hp
        exact ⟨max next (mp.media_sequence + mp.segments.length), rfl,
          le_max_left _ _⟩

theorem pollTrace_facts (join : String → Option String) :
    ∀ (polls : List MediaPlaylist) (st : MediaPlaylistState),
      (∀ mp ∈ polls, (∀ s ∈ mp.segments, (join s.uri).isSome = true) ∧
        mp.media_sequence + mp.segments.length < U64SIZE) →
      ((pollTrace join st polls).1.map SegmentInfo.sequence).Pairwise (· < ·) ∧
      (∀ q ∈ (pollTrace join st polls).1, ∀ p, st.next_sequence = some p →
        p ≤ q.sequence) ∧
      (∀ q ∈ (pollTrace join st polls).1, ∀ f,
        (pollTrace join st polls).2.next_sequence = some f → q.sequence < f) ∧
      (∀ p, st.next_sequence = some p → ∃ f,
        (pollTrace join st polls).2.next_sequence = some f ∧ p ≤ f) ∧
      ((pollTrace join st polls).2.next_sequence = none →
        st.next_sequence = none) := by
  intro polls
  induction polls with
  | nil =>
    intro st _
    refine ⟨by simp [pollTrace], by simp [pollTrace], by simp [pollTrace],
      ?_, ?_⟩
    · intro p hp
      exact ⟨p, hp, le_refl p⟩
    · intro h
      exact h
  | cons mp rest ih =>
    intro st hh
    obtain ⟨F1, F2, F3, F4, F5⟩ := extract_new_segments_facts join st mp
      (hh mp (by simp)).1 (hh mp (by simp)).2
    obtain ⟨G1, G2, G3, G4, G5⟩ := ih (st.extract_new_segments join mp).2
      (fun m hm => hh m (by simp [hm]))
    have htr : pollTrace join st (mp :: rest) =
        (okList (st.extract_new_segments join mp).1 ++
          (pollTrace join (st.extract_new_segments join mp).2 rest).1,
         (pollTrace join (st.extract_new_segments join mp).2 rest).2) := rfl
    rw [htr]
    dsimp only
    refine ⟨?_, ?_, ?_, ?_, ?_⟩
    · rw [List.map_append, List.pairwise_append]
      refine ⟨F1, G1, ?_⟩
      intro a ha b hb
      obtain ⟨q, hq, rfl⟩ := List.mem_map.mp ha
      obtain ⟨q', hq', rfl⟩ := List.mem_map.mp hb
      cases hns : (st.extract_new_segments join mp).2.next_sequence with
      | none =>
        rw [(F5 hns).2] at hq
        exact absurd hq (List.not_mem_nil _)
      | some f =>
        have h1 := F3 q hq f hns
        have h2 := G2 q' hq' f hns
        omega
    · intro q hq p hp
      rcases List.mem_append.mp hq with h | h
      · exact F2 q h p hp
      · obtain ⟨f, hf, hpf⟩ := F4 p hp
        have := G2 q h f hf
        omega
    · intro q hq f hf
      rcases List.mem_append.mp hq with h | h
      · cases hns : (st.extract_new_segments join mp).2.next_sequence with
        | none =>
          rw [(F5 hns).2] at h
          exact absurd h (List.not_mem_nil _)
        | some f1 =>
          have h1 := F3 q h f1 hns
          obtain ⟨f2, hf2, hle⟩ := G4 f1 hns
          rw [hf] at hf2
          obtain rfl : f = f2 := Option.some.inj hf2
          omega
      · exact G3 q h f hf
    · intro p hp
      obtain ⟨f, hf, hpf⟩ := F4 p hp
      obtain ⟨f2, hf2, h2⟩ := G4 f hf
      exact ⟨f2, hf2, by omega⟩
    · intro hnone
      exact (F5 (G5 hnone)).1

/-- Claim C1: a warm poll over a playlist with `media_sequence = seq0` and
`n > 0` segments, with tracked `next_sequence = next`, emits exactly the
segments with absolute sequences `max(next, seq0) .. seq0 + n - 1` (when
`next < seq0` the window slid and emission resumes at `seq0`), afterwards
`next_sequence` is `max(next, seq0 + n)` — one past the last emitted
sequence whenever anything was emitted; and across every sequence of
polls fed to the poller state, the emitted descriptors carry strictly
increasing sequence numbers: no duplicates, gaps allowed. Sequence
arithmetic stays below the `u64` wrap-around. -/
theorem extract_new_segments_monotone_c1 :
    (∀ (join : String → Option String) (b : Nat) (mp : MediaPlaylist)
        (next : Nat),
      0 < mp.segments.length →
      (∀ s ∈ mp.segments, (join s.uri).isSome = true) →
      mp.media_sequence + mp.segments.length < U64SIZE →
      ∃ out,
        (MediaPlaylistState.extract_new_segments join
          ⟨some next, b⟩ mp).1 = .ok out ∧
        out.map SegmentInfo.sequence =
          List.range' (max next mp.media_sequence)
            (mp.media_sequence + mp.segments.length -
              max next mp.media_sequence) ∧
        (MediaPlaylistState.extract_new_segments join
          ⟨some next, b⟩ mp).2.next_sequence =
          some (max next (mp.media_sequence + mp.segments.length)) ∧
        (∀ last, out.getLast? = some last →
          (MediaPlaylistState.extract_new_segments join
            ⟨some next, b⟩ mp).2.next_sequence = some (last.sequence + 1))) ∧
    (∀ (join : String → Option String) (st : MediaPlaylistState)
        (polls : List MediaPlaylist),
      (∀ mp ∈ polls, (∀ s ∈ mp.segments, (join s.uri).isSome = true) ∧
        mp.media_sequence + mp.segments.length < U64SIZE) →
      ((pollTrace join st polls).1.map SegmentInfo.sequence).Pairwise
        (· < ·)) := by
  constructor
  · intro join b mp next hn hjoin hbound
    obtain ⟨out, hout, hmap, hst⟩ :=
      extract_new_segments_warm join b mp next hn hjoin hbound
    refine ⟨out, hout, hmap, by rw [hst], ?_⟩
    intro last hlast
    rw [hst]
    have h1 : Option.map SegmentInfo.sequence out.getLast? =
        (out.map SegmentInfo.sequence).getLast? := (List.getLast?_map _ _).symm
    rw [hlast, hmap] at h1
    have hpos : 0 < mp.media_sequence + mp.segments.length -
        max next mp.media_sequence := by
      by_contra hc
      rw [show mp.media_sequence + mp.segments.length -
        max next mp.media_sequence = 0 from by omega] at h1
      exact absurd h1 (by simp)
    rw [range'_getLast _ _ hpos] at h1
    have hseq : last.sequence = max next mp.media_sequence +
        (mp.media_sequence + mp.segments.length -
          max next mp.media_sequence) - 1 := by simpa using h1
    have hlt : max next mp.media_sequence <
        mp.media_sequence + mp.segments.length := by omega
    have hnext_lt : next < mp.media_sequence + mp.segments.length :=
      lt_of_le_of_lt (le_max_left _ _) hlt
    rw [Nat.max_eq_right (Nat.le_of_lt hnext_lt)]
    rw [hseq, Nat.add_sub_cancel' (Nat.le_of_lt hlt)]
    dsimp only
    congr 1
    omega
  · intro join st polls hh
    exact (pollTrace_facts join polls st hh).1

/-- Witness for C1 at the crate's own successive-polls unit test: tracked
`next = 103` meeting `media_sequence = 101` with segments 101-103 emits
exactly segment 103 and advances to 104; the two-poll trace emits
strictly increasing sequences. -/
theorem extract_new_segments_monotone_c1_witness :
    (∃ out,
      (MediaPlaylistState.extract_new_segments (fun u => some u)
        ⟨some 103, 1⟩ ⟨101, [⟨"s101.ts", 2⟩, ⟨"s102.ts", 2⟩, ⟨"s103.ts", 2⟩]⟩).1 =
        .ok out ∧
      out.map SegmentInfo.sequence = List.range' (max 103 101) (101 + 3 - max 103 101)) ∧
    ((pollTrace (fun u => some u) ⟨none, 1⟩
        [⟨100, [⟨"s100.ts", 2⟩, ⟨"s101.ts", 2⟩, ⟨"s102.ts", 2⟩]⟩,
         ⟨101, [⟨"s101.ts", 2⟩, ⟨"s102.ts", 2⟩, ⟨"s103.ts", 2⟩]⟩]).1.map
      SegmentInfo.sequence).Pairwise (· < ·) := by
  constructor
  · obtain ⟨out, hout, hmap, _, _⟩ := extract_new_segments_monotone_c1.1
      (fun u => some u) 1 ⟨101, [⟨"s101.ts", 2⟩, ⟨"s102.ts", 2⟩, ⟨"s103.ts", 2⟩]⟩
      103 (by decide) (by intro s _; rfl) (by decide)
    exact ⟨out, hout, by simpa using hmap⟩
  · refine extract_new_segments_monotone_c1.2 (fun u => some u) ⟨none, 1⟩ _ ?_
    intro mp hmp
    have hcases : mp = ⟨100, [⟨"s100.ts", 2⟩, ⟨"s101.ts", 2⟩, ⟨"s102.ts", 2⟩]⟩ ∨
        mp = ⟨101, [⟨"s101.ts", 2⟩, ⟨"s102.ts", 2⟩, ⟨"s103.ts", 2⟩]⟩ := by
      simpa using hmp
    constructor
    · rcases hcases with rfl | rfl <;> exact fun s _ => rfl
    · rcases hcases with rfl | rfl <;> decide

/-! ## C8: keep-newest buffers -/

theorem mod_inj_window (cap head i j : Nat) (hi : i < cap) (hj : j < cap)
    (h : (head + i) % cap = (head + j) % cap) : i = j := by
  rcases Nat.lt_trichotomy i j with hlt | heq | hlt
  · exfalso
    have hmod : Nat.ModEq cap (head + i) (head + j) := h
    have hdvd := hmod.dvd
    have hcast : ((head + j : Nat) : ℤ) - ((head + i : Nat) : ℤ) =
        (j : ℤ) - (i : ℤ) := by push_cast; ring
    rw [hcast] at hdvd
    have hle := Int.le_of_dvd (by omega) hdvd
    omega
  · exact heq
  · exfalso
    have hmod : Nat.ModEq cap (head + j) (head + i) := h.symm
    have hdvd := hmod.dvd
    have hcast : ((head + i : Nat) : ℤ) - ((head + j : Nat) : ℤ) =
        (i : ℤ) - (j : ℤ) := by push_cast; ring
    rw [hcast] at hdvd
    have hle := Int.le_of_dvd (by omega) hdvd
    omega

theorem new_represents (T : Type) (c : Nat) (hc : 0 < c) :
    (RingBuffer.new T c).Represents [] := by
  refine ⟨by simpa [RingBuffer.new] using hc, by simpa [RingBuffer.new] using hc,
    rfl, by simp [RingBuffer.new], ?_⟩
  intro i hi
  exact absurd hi (by simp)

theorem push_capacity (rb : RingBuffer T) (v : T) :
    (rb.push v).2.buf.length = rb.buf.length := by
  unfold RingBuffer.push RingBuffer.capacity
  by_cases hl : rb.len < rb.buf.length
  · rw [if_pos hl]
    simp
  · rw [if_neg hl]
    simp

theorem push_not_full (rb : RingBuffer T) (l : List T) (v : T)
    (h : rb.Represents l) (hlt : l.length < rb.buf.length) :
    (rb.push v).1 = none ∧ (rb.push v).2.Represents (l ++ [v]) := by
  obtain ⟨hcap, hhead, hlen, hle, hidx⟩ := h
  have hcond : rb.len < rb.capacity := by
    unfold RingBuffer.capacity; omega
  have hpush : rb.push v =
      (none, { rb with
        buf := rb.buf.set ((rb.head + rb.len) % rb.capacity) (some v),
        len := rb.len + 1 }) := by
    unfold RingBuffer.push
    rw [if_pos hcond]
  rw [hpush]
  refine ⟨rfl, ?_⟩
  unfold RingBuffer.capacity at hcond ⊢
  dsimp only
  refine ⟨by simpa using hcap, by simpa using hhead, by simp [hlen], by simp; omega, ?_⟩
  intro i hi
  rw [List.length_append, List.length_singleton] at hi
  rw [List.length_set]
  rw [List.getD_eq_getElem?_getD, List.getElem?_set]
  by_cases hieq : i = l.length
  · subst hieq
    rw [if_pos (by rw [hlen]), if_pos (by apply Nat.mod_lt; omega)]
    rw [List.getElem?_concat_length]
    rfl
  · have hne : ¬ (rb.head + rb.len) % rb.buf.length =
        (rb.head + i) % rb.buf.length := by
      intro hcontra
      have := mod_inj_window rb.buf.length rb.head rb.len i
        (by omega) (by omega) hcontra
      omega
    rw [if_neg hne]
    rw [← List.getD_eq_getElem?_getD]
    rw [hidx i (by omega)]
    rw [List.getElem?_append, if_pos (show i < l.length from by omega)]

theorem push_full (rb : RingBuffer T) (l : List T) (v : T)
    (h : rb.Represents l) (heq : l.length = rb.buf.length) :
    (rb.push v).1 = l.head? ∧ (rb.push v).2.Represents (l.tail ++ [v]) := by
  obtain ⟨hcap, hhead, hlen, hle, hidx⟩ := h
  have hcond : ¬ rb.len < rb.capacity := by
    unfold RingBuffer.capacity
    omega
  have hpush : rb.push v =
      (rb.buf.getD rb.head none,
       { buf := (rb.buf.set rb.head none).set rb.head (some v),
         head := (rb.head + 1) % rb.capacity, len := rb.len }) := by
    unfold RingBuffer.push
    rw [if_neg hcond]
  rw [hpush]
  constructor
  · have h0 := hidx 0 (by omega)
    rw [Nat.add_zero, Nat.mod_eq_of_lt hhead] at h0
    rw [List.head?_eq_getElem?]
    exact h0
  · unfold RingBuffer.capacity
    dsimp only
    rw [List.set_set]
    have hlen' : (l.tail ++ [v]).length = l.length := by
      rw [List.length_append, List.length_tail, List.length_singleton]
      omega
    refine ⟨by simpa using hcap, ?_, ?_, ?_, ?_⟩
    · rw [List.length_set]
      exact Nat.mod_lt _ (by omega)
    · rw [hlen']
      exact hlen
    · rw [hlen', List.length_set]
      omega
    · intro i hi
      rw [hlen'] at hi
      rw [List.length_set, List.getD_eq_getElem?_getD, Nat.mod_add_mod,
        List.getElem?_set]
      by_cases hend : i = l.length - 1
      · subst hend
        rw [show rb.head + 1 + (l.length - 1) = rb.head + rb.buf.length
          from by omega]
        rw [Nat.add_mod_right, Nat.mod_eq_of_lt hhead]
        rw [if_pos rfl, if_pos hhead]
        rw [show l.length - 1 = l.tail.length from by
          rw [List.length_tail]]
        rw [List.getElem?_concat_length]
        rfl
      · have hne : ¬ rb.head = (rb.head + 1 + i) % rb.buf.length := by
          intro hcontra
          have h0 : (rb.head + 0) % rb.buf.length = rb.head := by
            rw [Nat.add_zero]
            exact Nat.mod_eq_of_lt hhead
          have hzero : (0 : Nat) = 1 + i := by
            apply mod_inj_window rb.buf.length rb.head 0 (1 + i)
              (by omega) (by omega)
            rw [h0, show rb.head + (1 + i) = rb.head + 1 + i from by omega]
            exact hcontra
          omega
        rw [if_neg hne]
        have hidx' := hidx (i + 1) (by omega)
        rw [List.getD_eq_getElem?_getD] at hidx'
        rw [show rb.head + 1 + i = rb.head + (i + 1) from by omega]
        rw [hidx']
        rw [List.getElem?_append, if_pos (show i < l.tail.length from by
          rw [List.length_tail]; omega)]
        rw [List.getElem?_tail]

theorem get_represents (rb : RingBuffer T) (l : List T)
    (h : rb.Represents l) (i : Nat) : rb.get i = l[i]? := by
  obtain ⟨hcap, hhead, hlen, hle, hidx⟩ := h
  unfold RingBuffer.get RingBuffer.capacity
  by_cases hi : rb.len ≤ i
  · rw [if_pos hi, List.getElem?_eq_none (by omega)]
  · rw [if_neg hi]
    exact hidx i (by omega)

theorem toListModel_represents (rb : RingBuffer T) (l : List T)
    (h : rb.Represents l) : rb.toListModel = l.map some := by
  obtain ⟨hcap, hhead, hlen, hle, hidx⟩ := h
  unfold RingBuffer.toListModel RingBuffer.capacity
  apply List.ext_getElem
  · simp [hlen]
  · intro n h1 h2
    rw [List.getElem_map, List.getElem_range, List.getElem_map]
    have hn : n < l.length := by simpa using h2
    rw [hidx n hn, List.getElem?_eq_getElem hn]

theorem pushAll_represents (T : Type) :
    ∀ (xs : List T) (rb : RingBuffer T) (l : List T), rb.Represents l →
      (rb.pushAll xs).Represents (absPushAll rb.buf.length l xs) ∧
      (rb.pushAll xs).buf.length = rb.buf.length := by
  intro xs
  induction xs with
  | nil => intro rb l h; exact ⟨h, rfl⟩
  | cons x rest ih =>
    intro rb l h
    have hcap0 : 0 < rb.buf.length := h.1
    by_cases hfull : l.length < rb.buf.length
    · obtain ⟨_, hrep⟩ := push_not_full rb l x h hfull
      have habs : absPush rb.buf.length l x = l ++ [x] := by
        unfold absPush
        rw [if_pos hfull]
      have hstep : absPushAll rb.buf.length l (x :: rest) =
          absPushAll rb.buf.length (l ++ [x]) rest := by
        rw [show absPushAll rb.buf.length l (x :: rest) =
          absPushAll rb.buf.length (absPush rb.buf.length l x) rest from rfl,
          habs]
      have hcapeq : (rb.push x).2.buf.length = rb.buf.length :=
        push_capacity rb x
      obtain ⟨h1, h2⟩ := ih (rb.push x).2 (l ++ [x]) hrep
      rw [hcapeq] at h1 h2
      exact ⟨by rw [hstep]; exact h1, by rw [show rb.pushAll (x :: rest) =
        ((rb.push x).2).pushAll rest from rfl]; rw [h2]⟩
    · have heq : l.length = rb.buf.length := by
        have := h.2.2.2.1
        omega
      obtain ⟨_, hrep⟩ := push_full rb l x h heq
      have habs : absPush rb.buf.length l x = l.tail ++ [x] := by
        unfold absPush
        rw [if_neg hfull]
      have hstep : absPushAll rb.buf.length l (x :: rest) =
          absPushAll rb.buf.length (l.tail ++ [x]) rest := by
        rw [show absPushAll rb.buf.length l (x :: rest) =
          absPushAll rb.buf.length (absPush rb.buf.length l x) rest from rfl,
          habs]
      have hcapeq : (rb.push x).2.buf.length = rb.buf.length :=
        push_capacity rb x
      obtain ⟨h1, h2⟩ := ih (rb.push x).2 (l.tail ++ [x]) hrep
      rw [hcapeq] at h1 h2
      exact ⟨by rw [hstep]; exact h1, by rw [show rb.pushAll (x :: rest) =
        ((rb.push x).2).pushAll rest from rfl]; rw [h2]⟩

theorem lastN_length (c : Nat) (xs : List T) :
    (lastN c xs).length = min xs.length c := by
  unfold lastN
  rw [List.length_drop]
  omega

theorem absPush_lastN (cap : Nat) (hc : 0 < cap) (ys : List T) (x : T) :
    absPush cap (lastN cap ys) x = lastN cap (ys ++ [x]) := by
  unfold absPush
  by_cases hlt : ys.length < cap
  · rw [if_pos (show (lastN cap ys).length < cap from by
      rw [lastN_length]; omega)]
    unfold lastN
    rw [show ys.length - cap = 0 from by omega, List.drop_zero,
      List.length_append, List.length_singleton,
      show ys.length + 1 - cap = 0 from by omega, List.drop_zero]
  · rw [if_neg (show ¬ (lastN cap ys).length < cap from by
      rw [lastN_length]; omega)]
    unfold lastN
    rw [List.tail_drop]
    rw [List.length_append, List.length_singleton]
    rw [List.drop_append_of_le_length (by omega)]
    rw [show ys.length - cap + 1 = ys.length + 1 - cap from by omega]

theorem absPushAll_lastN (cap : Nat) (hc : 0 < cap) :
    ∀ (xs ys : List T),
      absPushAll cap (lastN cap ys) xs = lastN cap (ys ++ xs) := by
  intro xs
  induction xs with
  | nil =>
    intro ys
    rw [List.append_nil]
    rfl
  | cons x rest ih =>
    intro ys
    have hstep : absPushAll cap (lastN cap ys) (x :: rest) =
        absPushAll cap (absPush cap (lastN cap ys) x) rest := rfl
    rw [hstep, absPush_lastN cap hc ys x, ih (ys ++ [x])]
    congr 1
    simp

theorem lastN_nil (c : Nat) : lastN c ([] : List T) = [] := by
  simp [lastN]

theorem push_drop_oldest_eq_absPush (cap : Nat) (hc : 0 < cap)
    (l : List T) (x : T) (hlen : l.length ≤ cap) :
    JitterBuffer.push_drop_oldest cap l x = absPush cap l x := by
  unfold JitterBuffer.push_drop_oldest absPush
  by_cases hlt : l.length < cap
  · rw [if_pos hlt, dropWhileOver]
    rw [if_neg (by simp; omega)]
  · have heq : l.length = cap := by omega
    have hne : l ≠ [] := by
      intro hnil
      rw [hnil] at heq
      simp at heq
      omega
    rw [if_neg hlt, dropWhileOver]
    rw [if_pos (by simp; omega)]
    have htail : (l ++ [x]).tail = l.tail ++ [x] := by
      cases l with
      | nil => exact absurd rfl hne
      | cons a t => rfl
    rw [htail, dropWhileOver]
    rw [if_neg (by rw [List.length_append, List.length_tail]; simp; omega)]

theorem jb_pushAll_eq_absPushAll (cap : Nat) (hc : 0 < cap) :
    ∀ (xs l : List T), l.length ≤ cap →
      JitterBuffer.pushAll cap l xs = absPushAll cap l xs := by
  intro xs
  induction xs with
  | nil => intro l _; rfl
  | cons x rest ih =>
    intro l hl
    have hstep := push_drop_oldest_eq_absPush cap hc l x hl
    have hbound : (absPush cap l x).length ≤ cap := by
      unfold absPush
      by_cases hlt : l.length < cap
      · rw [if_pos hlt]
        rw [List.length_append, List.length_singleton]
        omega
      · rw [if_neg hlt]
        rw [List.length_append, List.length_tail, List.length_singleton]
        omega
    show JitterBuffer.pushAll cap (JitterBuffer.push_drop_oldest cap l x) rest =
      absPushAll cap (absPush cap l x) rest
    rw [hstep]
    exact ih (absPush cap l x) hbound

/-- Claim C8: starting from an empty buffer of capacity `c > 0`, after any
sequence of pushes the buffer holds exactly the most recent
`min(pushes, c)` elements in insertion order (so its length never exceeds
`c`); a push on a full buffer displaces and returns exactly the oldest
element, and returns `None` otherwise; `get 0` yields the oldest retained
element. The jitter buffer's `push_drop_oldest` realises the same
keep-newest discipline on its deque, and `pop` takes the oldest retained
element. -/
theorem ring_buffer_keep_newest_c8 (T : Type) (c : Nat) (hc : 0 < c)
    (xs : List T) (v : T) :
    ((RingBuffer.new T c).pushAll xs).len = min xs.length c ∧
    ((RingBuffer.new T c).pushAll xs).toListModel = (lastN c xs).map some ∧
    (((RingBuffer.new T c).pushAll xs).push v).1 =
      (if xs.length < c then none else (lastN c xs).head?) ∧
    ((RingBuffer.new T c).pushAll xs).get 0 = (lastN c xs).head? ∧
    JitterBuffer.pushAll c [] xs = lastN c xs ∧
    (JitterBuffer.pop (JitterBuffer.pushAll c [] xs)).1 =
      (lastN c xs).head? := by
  have hcapnew : (RingBuffer.new T c).buf.length = c := by
    simp [RingBuffer.new]
  obtain ⟨hrep, hcap⟩ :=
    pushAll_represents T xs (RingBuffer.new T c) [] (new_represents T c hc)
  rw [hcapnew] at hrep hcap
  have habs : absPushAll c ([] : List T) xs = lastN c xs := by
    have h := absPushAll_lastN (T := T) c hc xs []
    rw [lastN_nil, List.nil_append] at h
    exact h
  rw [habs] at hrep
  have hjb : JitterBuffer.pushAll c ([] : List T) xs = lastN c xs := by
    rw [jb_pushAll_eq_absPushAll c hc xs [] (by simp)]
    exact habs
  refine ⟨?_, ?_, ?_, ?_, hjb, ?_⟩
  · rw [hrep.2.2.1, lastN_length]
  · exact toListModel_represents _ _ hrep
  · by_cases hfull : xs.length < c
    · rw [if_pos hfull]
      refine (push_not_full _ _ v hrep ?_).1
      rw [lastN_length, hcap]
      omega
    · rw [if_neg hfull]
      refine (push_full _ _ v hrep ?_).1
      rw [lastN_length, hcap]
      omega
  · rw [get_represents _ _ hrep 0, List.head?_eq_getElem?]
  · unfold JitterBuffer.pop
    rw [hjb]

/-- Witness for C8 at the crate's ring-buffer unit test: capacity 3,
pushing 1, 2, 3, 4 keeps 2, 3, 4 and a fifth push displaces 2. -/
theorem ring_buffer_keep_newest_c8_witness :
    ((RingBuffer.new Nat 3).pushAll [1, 2, 3, 4]).len =
      min [1, 2, 3, 4].length 3 ∧
    ((RingBuffer.new Nat 3).pushAll [1, 2, 3, 4]).toListModel =
      (lastN 3 [1, 2, 3, 4]).map some ∧
    (((RingBuffer.new Nat 3).pushAll [1, 2, 3, 4]).push 5).1 =
      (if [1, 2, 3, 4].length < 3 then none
        else (lastN 3 [1, 2, 3, 4]).head?) ∧
    ((RingBuffer.new Nat 3).pushAll [1, 2, 3, 4]).get 0 =
      (lastN 3 [1, 2, 3, 4]).head? ∧
    JitterBuffer.pushAll 3 [] [1, 2, 3, 4] = lastN 3 [1, 2, 3, 4] ∧
    (JitterBuffer.pop (JitterBuffer.pushAll 3 [] [1, 2, 3, 4])).1 =
      (lastN 3 [1, 2, 3, 4]).head? :=
  ring_buffer_keep_newest_c8 Nat 3 (by decide) [1, 2, 3, 4] 5
